import Mathlib

/-!
# LinkUGens: the Link unit generators of `server/plugins/LinkUGens.cpp`

A shallow embedding of the two unit generators `LinkTrig` and `LinkPhase` and of
the reference-counted session they share (`LinkUGen`), followed by theorems
about them.

Conventions of the embedding

* `double` values are modelled by exact rationals (`ℚ`); the only places where
  the C++ leaves the finite doubles are modelled explicitly: `fmod x 0` and a
  division by zero give no rational (`none`).  In `LinkTrig_next` an infinite
  `samplesPerBeat` reaches `lround` only as `-inf`, whose result (`LONG_MIN`) is
  no sample index.
* A store into the `float` output buffer goes through `toFloat`, the IEEE-754
  binary32 round-to-nearest-even conversion.  The trigger generator only stores
  `0.0f` and `1.f`, which are exact.
* `std::chrono::microseconds` is a signed integer count (`Micros`); dividing a
  duration by an `int` is the truncating integer division of C++.
* `uint32 sNumInstances` is a natural number kept below `2 ^ 32`, with explicit
  wrap-around in `++` and `--`.
* `inNumSamples` is a natural number, and the zero fill
  `LOOP1(inNumSamples, ZXP(out) = 0.0f;)` (a macro of `SC_PlugIn.h`) writes
  `inNumSamples` zeros: the output buffer is a list of that length.
* The Link session is external.  It is modelled by its `enabled` flag and by the
  trace of the calls made on it; the timeline returned by
  `captureAudioTimeline` is a parameter of each operation, and
  `clock().ticksToMicros(mAudioHostTime)` is a field of the host inputs.
* A `while` loop is run with fuel: `none` means the fuel ran out.
-/

namespace LinkUGens

/-! ## Numeric primitives -/

/-- `std::chrono::microseconds`: a signed integer number of microseconds. -/
abbrev Micros := ℤ

/-- `lround` / `llround` of `<cmath>`: nearest integer, halfway cases away from zero. -/
def lround (x : ℚ) : ℤ :=
  if 0 ≤ x then ⌊x + 1 / 2⌋ else -⌊-x + 1 / 2⌋

/-- Truncation toward zero, as used by `fmod`. -/
def truncQ (x : ℚ) : ℤ :=
  if 0 ≤ x then ⌊x⌋ else ⌈x⌉

/-- `fmod x y` of `<cmath>`: `x - y * trunc (x / y)`, which has the sign of `x`;
`fmod x 0` is NaN, rendered as `none`. -/
def fmod (x y : ℚ) : Option ℚ :=
  if y = 0 then none else some (x - y * (truncQ (x / y) : ℚ))

/-- Nearest integer, ties to the even neighbour. -/
def roundHalfEven (x : ℚ) : ℤ :=
  if x - (⌊x⌋ : ℚ) < 1 / 2 then ⌊x⌋
  else if 1 / 2 < x - (⌊x⌋ : ℚ) then ⌊x⌋ + 1
  else if ⌊x⌋ % 2 = 0 then ⌊x⌋ else ⌊x⌋ + 1

/-- Conversion of a `double` to `float` (IEEE-754 binary32, round to nearest,
ties to even): 24 significant bits, least exponent `-126` (subnormals below).
Overflow to infinity (magnitudes of `2 ^ 128` and more) is outside the model. -/
def toFloat (x : ℚ) : ℚ :=
  if x = 0 then 0
  else (roundHalfEven (x / (2 : ℚ) ^ (max (Int.log 2 |x|) (-126) - 23)) : ℚ)
         * (2 : ℚ) ^ (max (Int.log 2 |x|) (-126) - 23)

/-! ## The shared session (`ableton::Link`) -/

/-- The calls the unit generators make on the session. -/
inductive LinkCall where
  | enable (b : Bool)
  | captureAudioTimeline
  | requestBeatAtTime (beat : ℚ) (time : Micros) (quantum : ℚ)
  | commitAudioTimeline
  deriving DecidableEq, Repr

/-- The session `*sLink`: its enabled flag and the trace of calls made on it,
oldest first. -/
structure Link where
  enabled : Bool
  calls : List LinkCall
  deriving DecidableEq, Repr

/-- `sLink->isEnabled()`. -/
def Link.isEnabled (l : Link) : Bool := l.enabled

/-- `sLink->enable(b)`. -/
def Link.enable (l : Link) (b : Bool) : Link :=
  { enabled := b, calls := l.calls ++ [LinkCall.enable b] }

/-- Append a call that leaves the enabled flag alone. -/
def Link.record (l : Link) (c : LinkCall) : Link :=
  { l with calls := l.calls ++ [c] }

/-- The captured timeline (`captureAudioTimeline()`): the two queries used. -/
structure Timeline where
  beatAtTime : Micros → ℚ → ℚ
  phaseAtTime : Micros → ℚ → ℚ

/-- What the host engine supplies to a call: `hostMicros` is
`sLink->clock().ticksToMicros(mWorld->mAudioHostTime)`. -/
structure Host where
  hostMicros : Micros
  mBufFramePos : ℚ
  mSampleDur : ℚ

/-- `bufferTimeOffset = llround(mBufFramePos * mSampleDur * 1e6)`. -/
def bufferTimeOffset (h : Host) : Micros :=
  lround (h.mBufFramePos * h.mSampleDur * 1000000)

/-- `timeAtBufferBegin = ticksToMicros(mAudioHostTime) + bufferTimeOffset`. -/
def timeAtBufferBegin (h : Host) : Micros :=
  h.hostMicros + bufferTimeOffset h

/-- `bufferDuration = llround(mSampleDur * inNumSamples * 1e6)`. -/
def bufferDuration (h : Host) (inNumSamples : ℕ) : Micros :=
  lround (h.mSampleDur * (inNumSamples : ℚ) * 1000000)

/-- `timeAtBufferEnd = timeAtBufferBegin + bufferDuration`. -/
def timeAtBufferEnd (h : Host) (inNumSamples : ℕ) : Micros :=
  timeAtBufferBegin h + bufferDuration h inNumSamples

/-! ## `struct LinkUGen`: the static members and the reference count -/

/-- The static members of `LinkUGen`: `sLink` (a `unique_ptr`, `none` is
`nullptr`) and the `uint32` counter `sNumInstances`. -/
structure LinkUGen where
  sLink : Option Link
  sNumInstances : ℕ
  deriving DecidableEq, Repr

/-- The state after static initialisation: a session that is not yet enabled
and no instance. -/
def LinkUGen.init : LinkUGen :=
  { sLink := some { enabled := false, calls := [] }, sNumInstances := 0 }

/-- `LinkUGen::LinkUgen_Ctor`. -/
def LinkUgen_Ctor (g : LinkUGen) : LinkUGen :=
  { sLink :=
      match g.sLink with
      | some l => if !l.isEnabled then some (l.enable true) else some l
      | none => none
    sNumInstances := (g.sNumInstances + 1) % 2 ^ 32 }

/-- `LinkUGen::LinkUGen_Dtor`; `none` is the dereference of a null `sLink`. -/
def LinkUGen_Dtor (g : LinkUGen) : Option LinkUGen :=
  if (g.sNumInstances + (2 ^ 32 - 1)) % 2 ^ 32 = 0 then
    match g.sLink with
    | some l => some { sLink := some (l.enable false), sNumInstances := 0 }
    | none => none
  else some { g with sNumInstances := (g.sNumInstances + (2 ^ 32 - 1)) % 2 ^ 32 }

/-! ## `LinkTrig` -/

/-- The members of a `LinkTrig` unit. -/
structure LinkTrig where
  mBeats : ℚ
  mBeatTimeOffset : ℚ
  deriving DecidableEq, Repr

/-- `LinkTrig_Ctor`.  The unit comes in with whatever its memory holds.  The
result is the static state, the unit and the sample written by `ZOUT0(0) = 0`;
`none` is the dereference of a null `sLink` or a NaN offset (`quantum = 0`). -/
def LinkTrig_Ctor (g : LinkUGen) (unit : LinkTrig) (host : Host) (tl : Timeline)
    (quantum : ℚ) : Option (LinkUGen × LinkTrig × ℚ) :=
  match (LinkUgen_Ctor g).sLink with
  | none => none
  | some l =>
    if (LinkUgen_Ctor g).sNumInstances = 0 then
      some ({ LinkUgen_Ctor g with
                sLink := some (((l.record LinkCall.captureAudioTimeline).record
                  (LinkCall.requestBeatAtTime 0 (timeAtBufferBegin host) quantum)).record
                  LinkCall.commitAudioTimeline) },
            { unit with mBeatTimeOffset := 0 }, 0)
    else
      match fmod (tl.beatAtTime (timeAtBufferBegin host) quantum) quantum with
      | none => none
      | some r =>
        some ({ LinkUgen_Ctor g with sLink := some (l.record LinkCall.captureAudioTimeline) },
              { unit with
                  mBeatTimeOffset := tl.beatAtTime (timeAtBufferBegin host) quantum + quantum - r },
              0)

/-- `LinkTrig_Dtor`. -/
def LinkTrig_Dtor (g : LinkUGen) (_unit : LinkTrig) : Option LinkUGen :=
  LinkUGen_Dtor g

/-- `samplesPerBeat = inNumSamples / beatsInBuffer`; a zero divisor gives an
infinity (or NaN), rendered as `none`. -/
def samplesPerBeat (inNumSamples : ℕ) (beatsInBuffer : ℚ) : Option ℚ :=
  if beatsInBuffer = 0 then none else some ((inNumSamples : ℚ) / beatsInBuffer)

/-- `offset = lround(samplesPerBeat * (clickAtPosition - beatsAtBufferBegin))`.
With an infinite `samplesPerBeat` the loop body is only reached with
`clickAtPosition < beatsAtBufferBegin`, so the product is `-inf`, whose `lround`
is `LONG_MIN`: no sample index, rendered as `none` (with `inNumSamples = 0` the
quotient is NaN and no index is in range whatever `lround` returns). -/
def clickOffset (spb : Option ℚ) (clickAtPosition beatsAtBufferBegin : ℚ) : Option ℤ :=
  match spb with
  | none => none
  | some s => some (lround (s * (clickAtPosition - beatsAtBufferBegin)))

/-- The body of the `if (offset >= 0 && offset < inNumSamples)` statement:
`mOutBuf[0][offset] = 1.f`. -/
def writeClick (inNumSamples : ℕ) (out : List ℚ) (offset : Option ℤ) : List ℚ :=
  match offset with
  | none => out
  | some o => if 0 ≤ o ∧ o < (inNumSamples : ℤ) then out.set o.toNat 1 else out

/-- The `while (clickAtPosition < beatsAtBufferEnd && beatsAtBufferEnd > 0)` loop
of `LinkTrig_next`, run with fuel. -/
def clickLoop (inNumSamples : ℕ) (beatsAtBufferBegin beatsAtBufferEnd beatsPerClick : ℚ)
    (spb : Option ℚ) : ℕ → ℚ → List ℚ → Option (List ℚ)
  | 0, clickAtPosition, out =>
    if clickAtPosition < beatsAtBufferEnd ∧ beatsAtBufferEnd > 0 then none else some out
  | fuel + 1, clickAtPosition, out =>
    if clickAtPosition < beatsAtBufferEnd ∧ beatsAtBufferEnd > 0 then
      clickLoop inNumSamples beatsAtBufferBegin beatsAtBufferEnd beatsPerClick spb fuel
        (clickAtPosition + beatsPerClick)
        (writeClick inNumSamples out (clickOffset spb clickAtPosition beatsAtBufferBegin))
    else some out

/-- `beatsAtBufferEnd = timeline.beatAtTime(timeAtBufferEnd, *quantum) - unit->mBeatTimeOffset`. -/
def beatsAtBufferEnd (unit : LinkTrig) (host : Host) (tl : Timeline) (quantum : ℚ)
    (inNumSamples : ℕ) : ℚ :=
  tl.beatAtTime (timeAtBufferEnd host inNumSamples) quantum - unit.mBeatTimeOffset

/-- `LinkTrig_next`.  The result is the static state, the unit and the output
buffer `mOutBuf[0]` of `inNumSamples` samples; `none` means the fuel of the
click loop ran out.  With `beatsPerClick = 0` the start of the loop is NaN and
its condition is false. -/
def LinkTrig_next (fuel : ℕ) (g : LinkUGen) (unit : LinkTrig) (host : Host) (tl : Timeline)
    (quantum beatsPerClick : ℚ) (inNumSamples : ℕ) : Option (LinkUGen × LinkTrig × List ℚ) :=
  match g.sLink with
  | none => some (g, unit, List.replicate inNumSamples 0)
  | some l =>
    match fmod unit.mBeats beatsPerClick with
    | none =>
      some ({ g with sLink := some (l.record LinkCall.captureAudioTimeline) },
            { unit with mBeats := beatsAtBufferEnd unit host tl quantum inNumSamples },
            List.replicate inNumSamples 0)
    | some r =>
      (clickLoop inNumSamples unit.mBeats (beatsAtBufferEnd unit host tl quantum inNumSamples)
          beatsPerClick
          (samplesPerBeat inNumSamples
            (beatsAtBufferEnd unit host tl quantum inNumSamples - unit.mBeats))
          fuel (unit.mBeats - r) (List.replicate inNumSamples 0)).map
        fun out =>
          ({ g with sLink := some (l.record LinkCall.captureAudioTimeline) },
           { unit with mBeats := beatsAtBufferEnd unit host tl quantum inNumSamples }, out)

/-! ## `LinkPhase` -/

/-- The member of a `LinkPhase` unit. -/
structure LinkPhase where
  mTime : Micros
  deriving DecidableEq, Repr

/-- `LinkPhase_Ctor`; `none` is the dereference of a null `sLink`. -/
def LinkPhase_Ctor (g : LinkUGen) (_unit : LinkPhase) (host : Host) (quantum : ℚ) :
    Option (LinkUGen × LinkPhase × ℚ) :=
  match (LinkUgen_Ctor g).sLink with
  | none => none
  | some l =>
    if (LinkUgen_Ctor g).sNumInstances = 0 then
      some ({ LinkUgen_Ctor g with
                sLink := some (((l.record LinkCall.captureAudioTimeline).record
                  (LinkCall.requestBeatAtTime 0 (timeAtBufferBegin host) quantum)).record
                  LinkCall.commitAudioTimeline) },
            { mTime := timeAtBufferBegin host }, 0)
    else
      some ({ LinkUgen_Ctor g with sLink := some (l.record LinkCall.captureAudioTimeline) },
            { mTime := timeAtBufferBegin host }, 0)

/-- `LinkPhase_Dtor`. -/
def LinkPhase_Dtor (g : LinkUGen) (_unit : LinkPhase) : Option LinkUGen :=
  LinkUGen_Dtor g

/-- `timePerSample = timeInBuffer / inNumSamples`: a duration divided by an
`int`, the truncating integer division. -/
def timePerSample (mTime timeAtEnd : Micros) (inNumSamples : ℕ) : Micros :=
  Int.tdiv (timeAtEnd - mTime) (inNumSamples : ℤ)

/-- The time stamp `unit->mTime + i * timePerSample` at which sample `i` reads the phase. -/
def sampleTime (mTime timeAtEnd : Micros) (inNumSamples : ℕ) (i : ℕ) : Micros :=
  mTime + (i : ℤ) * timePerSample mTime timeAtEnd inNumSamples

/-- `LinkPhase_next`.  The result is the static state, the unit and the output
buffer; `none` is the integer division by `inNumSamples = 0` or a division by
`quantum = 0` (samples that are not finite). -/
def LinkPhase_next (g : LinkUGen) (unit : LinkPhase) (host : Host) (tl : Timeline)
    (quantum : ℚ) (inNumSamples : ℕ) : Option (LinkUGen × LinkPhase × List ℚ) :=
  match g.sLink with
  | none => some (g, unit, List.replicate inNumSamples 0)
  | some l =>
    if inNumSamples = 0 ∨ quantum = 0 then none
    else
      some ({ g with sLink := some (l.record LinkCall.captureAudioTimeline) },
            { mTime := timeAtBufferEnd host inNumSamples },
            (List.range inNumSamples).map fun i =>
              toFloat (tl.phaseAtTime
                (sampleTime unit.mTime (timeAtBufferEnd host inNumSamples) inNumSamples i)
                quantum / quantum))

/-! ## Auxiliary definitions for the statements -/

/-- A timeline whose beat and phase do not depend on the time stamp. -/
def constTimeline (beat phase : ℚ) : Timeline :=
  { beatAtTime := fun _ _ => beat, phaseAtTime := fun _ _ => phase }

/-- A host at time zero running at 44100 Hz. -/
def host44k : Host :=
  { hostMicros := 0, mBufFramePos := 0, mSampleDur := 1 / 44100 }

/-- The number of times the body of the click loop of `LinkTrig_next` runs, for
a positive `beatsPerClick`. -/
def clickIterations (beatsAtBufferBegin beatsAtBufferEnd beatsPerClick : ℚ) : ℕ :=
  match fmod beatsAtBufferBegin beatsPerClick with
  | none => 0
  | some r =>
    if beatsAtBufferBegin - r < beatsAtBufferEnd ∧ 0 < beatsAtBufferEnd then
      ⌈(beatsAtBufferEnd - (beatsAtBufferBegin - r)) / beatsPerClick⌉.toNat
    else 0

/-- The two lifecycle operations on the shared session: `acquire` is
`LinkUGen::LinkUgen_Ctor`, `release` is `LinkUGen::LinkUGen_Dtor`. -/
inductive Op where
  | acquire
  | release
  deriving DecidableEq, Repr

/-- One lifecycle operation on the static state. -/
def step (g : LinkUGen) : Op → Option LinkUGen
  | Op.acquire => some (LinkUgen_Ctor g)
  | Op.release => LinkUGen_Dtor g

/-- A sequence of lifecycle operations, left to right. -/
def run (g : LinkUGen) : List Op → Option LinkUGen
  | [] => some g
  | op :: ops => (step g op).bind fun g' => run g' ops

/-- The number of live instances after a sequence of operations started with
`c` live instances; `none` when a release has no unmatched acquire before it. -/
def liveAfter (c : ℕ) : List Op → Option ℕ
  | [] => some c
  | Op.acquire :: ops => liveAfter (c + 1) ops
  | Op.release :: ops => if c = 0 then none else liveAfter (c - 1) ops

/-- The greatest number of live instances reached during a sequence of
operations started with `c` live instances. -/
def peakLive (c : ℕ) : List Op → ℕ
  | [] => c
  | Op.acquire :: ops => max c (peakLive (c + 1) ops)
  | Op.release :: ops => max c (peakLive (c - 1) ops)

/-- The two kinds of unit generator. -/
inductive Kind where
  | trig
  | phase
  deriving DecidableEq, Repr

/-- A construction: the kind of unit and the inputs of its constructor. -/
structure CtorArgs where
  kind : Kind
  host : Host
  tl : Timeline
  quantum : ℚ

/-- Construct one unit (`LinkTrig_Ctor` or `LinkPhase_Ctor`), keeping the static state. -/
def construct (g : LinkUGen) (a : CtorArgs) : Option LinkUGen :=
  match a.kind with
  | Kind.trig => (LinkTrig_Ctor g ⟨0, 0⟩ a.host a.tl a.quantum).map fun res => res.1
  | Kind.phase => (LinkPhase_Ctor g ⟨0⟩ a.host a.quantum).map fun res => res.1

/-- Destroy one unit (`LinkTrig_Dtor` or `LinkPhase_Dtor`). -/
def destroy (g : LinkUGen) : Kind → Option LinkUGen
  | Kind.trig => LinkTrig_Dtor g ⟨0, 0⟩
  | Kind.phase => LinkPhase_Dtor g ⟨0⟩

/-- Construct the units of a list, left to right. -/
def constructAll (g : LinkUGen) : List CtorArgs → Option LinkUGen
  | [] => some g
  | a :: as => (construct g a).bind fun g' => constructAll g' as

/-- Destroy units of the kinds of a list, left to right. -/
def destroyAll (g : LinkUGen) : List Kind → Option LinkUGen
  | [] => some g
  | k :: ks => (destroy g k).bind fun g' => destroyAll g' ks

/-- The number of `enable(b)` calls in the trace of a session. -/
def enableCalls (b : Bool) (l : Link) : ℕ :=
  l.calls.count (LinkCall.enable b)

/-- The constructor inputs of a `LinkTrig` with `quantum = 4` on `host44k`. -/
def trigArgs : CtorArgs :=
  { kind := Kind.trig, host := host44k, tl := constTimeline 0 0, quantum := 4 }

/-- The constructor inputs of a `LinkPhase` with `quantum = 4` on `host44k`. -/
def phaseArgs : CtorArgs :=
  { kind := Kind.phase, host := host44k, tl := constTimeline 0 0, quantum := 4 }

/-- Some click visited by the loop started at `c` (the clicks `c + k * p` that
are `< e`, while `e > 0`) has computed offset `i`. -/
def hitsFrom (b e p : ℚ) (spb : Option ℚ) (c : ℚ) (i : ℕ) : Prop :=
  ∃ k : ℕ, c + (k : ℚ) * p < e ∧ 0 < e ∧ clickOffset spb (c + (k : ℚ) * p) b = some (i : ℤ)

/-! ## Lemmas on the numeric primitives -/

theorem lround_nonneg {x : ℚ} (hx : 0 ≤ x) : lround x = ⌊x + 1 / 2⌋ := by
  simp [lround, hx]

theorem lround_neg {x : ℚ} (hx : x < 0) : lround x = -⌊-x + 1 / 2⌋ := by
  simp [lround, not_le.mpr hx]

theorem lround_mono {x y : ℚ} (h : x ≤ y) : lround x ≤ lround y := by
  by_cases hx : 0 ≤ x
  · rw [lround_nonneg hx, lround_nonneg (hx.trans h)]
    exact Int.floor_mono (by linarith)
  · push_neg at hx
    by_cases hy : 0 ≤ y
    · rw [lround_neg hx, lround_nonneg hy]
      have h1 : (0 : ℤ) ≤ ⌊-x + 1 / 2⌋ := Int.floor_nonneg.mpr (by linarith)
      have h2 : (0 : ℤ) ≤ ⌊y + 1 / 2⌋ := Int.floor_nonneg.mpr (by linarith)
      omega
    · push_neg at hy
      rw [lround_neg hx, lround_neg hy]
      have : ⌊-y + 1 / 2⌋ ≤ ⌊-x + 1 / 2⌋ := Int.floor_mono (by linarith)
      omega

theorem lround_intCast (m : ℤ) : lround (m : ℚ) = m := by
  by_cases hm : 0 ≤ m
  · have h0 : (0 : ℚ) ≤ (m : ℚ) := by exact_mod_cast hm
    rw [lround_nonneg h0, Int.floor_eq_iff]
    constructor <;> norm_num
  · push_neg at hm
    have h0 : (m : ℚ) < 0 := by exact_mod_cast hm
    rw [lround_neg h0]
    have : ⌊-(m : ℚ) + 1 / 2⌋ = -m := by
      rw [Int.floor_eq_iff]
      constructor <;> push_cast <;> norm_num
    omega

theorem fmod_pos {x y : ℚ} (hy : 0 < y) : fmod x y = some (x - y * (truncQ (x / y) : ℚ)) := by
  simp [fmod, hy.ne']

/-! ## Lemmas on the click loop -/

theorem writeClick_length (n : ℕ) (out : List ℚ) (off : Option ℤ) :
    (writeClick n out off).length = out.length := by
  unfold writeClick
  split
  · rfl
  · split <;> simp

theorem writeClick_getElem? (n : ℕ) (out : List ℚ) (off : Option ℤ) (hlen : out.length = n)
    (i : ℕ) (hi : i < n) :
    (writeClick n out off)[i]? = if off = some (i : ℤ) then some 1 else out[i]? := by
  unfold writeClick
  cases off with
  | none => simp
  | some o =>
    simp only [Option.some.injEq]
    by_cases hr : 0 ≤ o ∧ o < (n : ℤ)
    · rw [if_pos hr, List.getElem?_set]
      by_cases hoi : o = (i : ℤ)
      · subst hoi
        simp [hlen, hi]
      · have : o.toNat ≠ i := by omega
        simp [hoi, this]
    · rw [if_neg hr]
      have : o ≠ (i : ℤ) := by omega
      simp [this]

theorem writeClick_discard (n : ℕ) (out : List ℚ) (o : ℤ) (h : o < 0 ∨ (n : ℤ) ≤ o) :
    writeClick n out (some o) = out := by
  unfold writeClick
  have : ¬ (0 ≤ o ∧ o < (n : ℤ)) := by omega
  simp [this]

theorem hitsFrom_step {b e p : ℚ} {spb : Option ℚ} {c : ℚ} {i : ℕ}
    (hc : c < e ∧ e > 0) :
    hitsFrom b e p spb c i ↔ clickOffset spb c b = some (i : ℤ) ∨ hitsFrom b e p spb (c + p) i := by
  constructor
  · rintro ⟨k, hk, he, ho⟩
    cases k with
    | zero => left; simpa using ho
    | succ k =>
      right
      refine ⟨k, ?_, he, ?_⟩
      · have : c + p + (k : ℚ) * p = c + ((k + 1 : ℕ) : ℚ) * p := by push_cast; ring
        rw [this]; exact hk
      · have : c + p + (k : ℚ) * p = c + ((k + 1 : ℕ) : ℚ) * p := by push_cast; ring
        rw [this]; exact ho
  · rintro (ho | ⟨k, hk, he, ho⟩)
    · exact ⟨0, by simpa using hc.1, hc.2, by simpa using ho⟩
    · refine ⟨k + 1, ?_, he, ?_⟩
      · have : c + ((k + 1 : ℕ) : ℚ) * p = c + p + (k : ℚ) * p := by push_cast; ring
        rw [this]; exact hk
      · have : c + ((k + 1 : ℕ) : ℚ) * p = c + p + (k : ℚ) * p := by push_cast; ring
        rw [this]; exact ho

theorem hitsFrom_done {b e p : ℚ} {spb : Option ℚ} {c : ℚ} {i : ℕ} (hp : 0 < p)
    (hc : ¬ (c < e ∧ e > 0)) : ¬ hitsFrom b e p spb c i := by
  rintro ⟨k, hk, he, -⟩
  apply hc
  refine ⟨?_, he⟩
  have : (0 : ℚ) ≤ (k : ℚ) * p := by positivity
  linarith

/-- The click loop, given enough fuel, returns a buffer of the same length in
which a sample is `1` when a visited click hits it and is unchanged otherwise. -/
theorem clickLoop_spec (n : ℕ) (b e p : ℚ) (spb : Option ℚ) (hp : 0 < p) :
    ∀ (fuel : ℕ) (c : ℚ) (out : List ℚ), out.length = n → (e ≤ c + (fuel : ℚ) * p ∨ e ≤ 0) →
      ∃ out', clickLoop n b e p spb fuel c out = some out' ∧ out'.length = n ∧
        ∀ i, i < n → (hitsFrom b e p spb c i → out'[i]? = some 1) ∧
          (¬ hitsFrom b e p spb c i → out'[i]? = out[i]?) := by
  intro fuel
  induction fuel with
  | zero =>
    intro c out hlen hfuel
    have hc : ¬ (c < e ∧ e > 0) := by
      rintro ⟨h1, h2⟩
      rcases hfuel with h | h
      · simp at h; linarith
      · linarith
    refine ⟨out, by simp [clickLoop, hc], hlen, fun i _ => ⟨fun h => ?_, fun _ => rfl⟩⟩
    exact absurd h (hitsFrom_done hp hc)
  | succ fuel ih =>
    intro c out hlen hfuel
    by_cases hc : c < e ∧ e > 0
    · have hfuel' : e ≤ c + p + (fuel : ℚ) * p ∨ e ≤ 0 := by
        rcases hfuel with h | h
        · left; push_cast at h; linarith
        · right; exact h
      obtain ⟨out', hrun, hlen', hspec⟩ :=
        ih (c + p) (writeClick n out (clickOffset spb c b))
          (by rw [writeClick_length, hlen]) hfuel'
      refine ⟨out', by simp only [clickLoop, if_pos hc, hrun], hlen', fun i hi => ?_⟩
      obtain ⟨h1, h2⟩ := hspec i hi
      rw [writeClick_getElem? n out _ hlen i hi] at h2
      constructor
      · intro hh
        rcases (hitsFrom_step hc).mp hh with ho | hn
        · by_cases hn : hitsFrom b e p spb (c + p) i
          · exact h1 hn
          · rw [h2 hn, if_pos ho]
        · exact h1 hn
      · intro hh
        have hno : ¬ clickOffset spb c b = some (i : ℤ) := fun ho =>
          hh ((hitsFrom_step hc).mpr (Or.inl ho))
        have hnn : ¬ hitsFrom b e p spb (c + p) i := fun hn =>
          hh ((hitsFrom_step hc).mpr (Or.inr hn))
        rw [h2 hnn, if_neg hno]
    · refine ⟨out, by simp [clickLoop, hc], hlen, fun i _ => ⟨fun h => ?_, fun _ => rfl⟩⟩
      exact absurd h (hitsFrom_done hp hc)

theorem clickIterations_fuel {b e p r : ℚ} {fuel : ℕ} (hp : 0 < p)
    (hr : fmod b p = some r) (hfuel : clickIterations b e p ≤ fuel) :
    e ≤ b - r + (fuel : ℚ) * p ∨ e ≤ 0 := by
  unfold clickIterations at hfuel
  rw [hr] at hfuel
  simp only at hfuel
  by_cases hc : b - r < e ∧ 0 < e
  · left
    rw [if_pos hc] at hfuel
    have h1 : (e - (b - r)) / p ≤ (⌈(e - (b - r)) / p⌉ : ℚ) := Int.le_ceil _
    have h2 : (⌈(e - (b - r)) / p⌉ : ℤ) ≤ (fuel : ℤ) := by
      have := Int.self_le_toNat ⌈(e - (b - r)) / p⌉
      omega
    have h3 : (⌈(e - (b - r)) / p⌉ : ℚ) ≤ (fuel : ℚ) := by exact_mod_cast h2
    have h4 : (e - (b - r)) / p ≤ (fuel : ℚ) := h1.trans h3
    rw [div_le_iff₀ hp] at h4
    linarith
  · by_cases he : 0 < e
    · left
      have : e ≤ b - r := by
        by_contra hlt
        exact hc ⟨not_le.mp hlt, he⟩
      have : (0 : ℚ) ≤ (fuel : ℚ) * p := by positivity
      linarith
    · right; exact not_lt.mp he

/-- The general description of `LinkTrig_next` with the session present and a
positive `beatsPerClick`: with enough fuel it returns, it records one capture of
the timeline, stores `beatsAtBufferEnd` in `mBeats`, and sample `i` of the
output is `1` when a visited click has offset `i` and `0` otherwise. -/
theorem LinkTrig_next_spec (fuel : ℕ) (g : LinkUGen) (l : Link) (unit : LinkTrig) (host : Host)
    (tl : Timeline) (quantum beatsPerClick r : ℚ) (n : ℕ)
    (hl : g.sLink = some l) (hp : 0 < beatsPerClick)
    (hr : fmod unit.mBeats beatsPerClick = some r)
    (hfuel : clickIterations unit.mBeats (beatsAtBufferEnd unit host tl quantum n) beatsPerClick
      ≤ fuel) :
    ∃ out, LinkTrig_next fuel g unit host tl quantum beatsPerClick n =
        some ({ g with sLink := some (l.record LinkCall.captureAudioTimeline) },
              { unit with mBeats := beatsAtBufferEnd unit host tl quantum n }, out) ∧
      out.length = n ∧
      ∀ i, i < n →
        (hitsFrom unit.mBeats (beatsAtBufferEnd unit host tl quantum n) beatsPerClick
            (samplesPerBeat n (beatsAtBufferEnd unit host tl quantum n - unit.mBeats))
            (unit.mBeats - r) i → out[i]? = some 1) ∧
        (¬ hitsFrom unit.mBeats (beatsAtBufferEnd unit host tl quantum n) beatsPerClick
            (samplesPerBeat n (beatsAtBufferEnd unit host tl quantum n - unit.mBeats))
            (unit.mBeats - r) i → out[i]? = some 0) := by
  obtain ⟨out, hrun, hlen, hspec⟩ :=
    clickLoop_spec n unit.mBeats (beatsAtBufferEnd unit host tl quantum n) beatsPerClick
      (samplesPerBeat n (beatsAtBufferEnd unit host tl quantum n - unit.mBeats)) hp fuel
      (unit.mBeats - r) (List.replicate n 0) (by simp) (clickIterations_fuel hp hr hfuel)
  refine ⟨out, ?_, hlen, fun i hi => ⟨(hspec i hi).1, fun h => ?_⟩⟩
  · simp only [LinkTrig_next, hl, hr, hrun, Option.map_some']
  · rw [(hspec i hi).2 h]
    simp [hi]

/-- With no session (`sLink == nullptr`) `LinkTrig_next` only zero-fills. -/
theorem LinkTrig_next_null (fuel : ℕ) (g : LinkUGen) (unit : LinkTrig) (host : Host)
    (tl : Timeline) (quantum beatsPerClick : ℚ) (n : ℕ) (hl : g.sLink = none) :
    LinkTrig_next fuel g unit host tl quantum beatsPerClick n =
      some (g, unit, List.replicate n 0) := by
  simp only [LinkTrig_next, hl]

/-! ## C2: where `LinkTrig_next` writes a one -/

/-- C2.  For `quantum > 0`, `beatsPerClick > 0` and `numSamples ≥ 1`,
`LinkTrig_next` returns (given fuel for the iterations of its loop) an output of
exactly `numSamples` samples in which sample `i` is `1` if and only if the
session is present and some boundary `start + k * beatsPerClick` visited by the
placement loop (`start = beatsAtBufferBegin - fmod(beatsAtBufferBegin,
beatsPerClick)`, visited while it is `< beatsAtBufferEnd` and
`beatsAtBufferEnd > 0`) has computed offset `i`; every other sample is exactly
`0`; and an offset outside `[0, numSamples)` changes no sample. -/
theorem LinkTrig_next_one_iff_offset (fuel : ℕ) (g : LinkUGen) (unit : LinkTrig) (host : Host)
    (tl : Timeline) (quantum beatsPerClick r : ℚ) (n : ℕ)
    (_hq : 0 < quantum) (hp : 0 < beatsPerClick) (_hn : 1 ≤ n)
    (hr : fmod unit.mBeats beatsPerClick = some r)
    (hfuel : clickIterations unit.mBeats (beatsAtBufferEnd unit host tl quantum n) beatsPerClick
      ≤ fuel) :
    ∃ g' unit' out, LinkTrig_next fuel g unit host tl quantum beatsPerClick n =
        some (g', unit', out) ∧
      out.length = n ∧
      (∀ i, i < n →
        (out[i]? = some 1 ↔
          g.sLink.isSome = true ∧
          ∃ k : ℕ, unit.mBeats - r + (k : ℚ) * beatsPerClick
                < beatsAtBufferEnd unit host tl quantum n ∧
              0 < beatsAtBufferEnd unit host tl quantum n ∧
              clickOffset
                (samplesPerBeat n (beatsAtBufferEnd unit host tl quantum n - unit.mBeats))
                (unit.mBeats - r + (k : ℚ) * beatsPerClick) unit.mBeats = some (i : ℤ)) ∧
        (out[i]? = some 1 ∨ out[i]? = some 0)) ∧
      (∀ (buf : List ℚ) (o : ℤ), o < 0 ∨ (n : ℤ) ≤ o → writeClick n buf (some o) = buf) := by
  cases hl : g.sLink with
  | none =>
    refine ⟨g, unit, List.replicate n 0, LinkTrig_next_null fuel g unit host tl _ _ n hl,
      by simp, fun i hi => ?_, fun buf o ho => writeClick_discard n buf o ho⟩
    simp [hi]
  | some l =>
    obtain ⟨out, hrun, hlen, hspec⟩ :=
      LinkTrig_next_spec fuel g l unit host tl quantum beatsPerClick r n hl hp hr hfuel
    refine ⟨_, _, out, hrun, hlen, fun i hi => ?_, fun buf o ho => writeClick_discard n buf o ho⟩
    obtain ⟨h1, h0⟩ := hspec i hi
    by_cases hh : hitsFrom unit.mBeats (beatsAtBufferEnd unit host tl quantum n) beatsPerClick
        (samplesPerBeat n (beatsAtBufferEnd unit host tl quantum n - unit.mBeats))
        (unit.mBeats - r) i
    · exact ⟨⟨fun _ => ⟨rfl, hh⟩, fun _ => h1 hh⟩, Or.inl (h1 hh)⟩
    · refine ⟨⟨fun h => ?_, fun h => absurd h.2 hh⟩, Or.inr (h0 hh)⟩
      rw [h0 hh] at h
      simp at h

/-- C2 at a concrete buffer: beats `[1/10, 11/10)`, four samples, one click per beat. -/
theorem LinkTrig_next_one_iff_offset_witness :
    ((0 : ℚ) < 4 ∧ (0 : ℚ) < 1 ∧ 1 ≤ 4 ∧ fmod (1 / 10) 1 = some (1 / 10) ∧
      clickIterations (1 / 10)
        (beatsAtBufferEnd ⟨1 / 10, 0⟩ host44k (constTimeline (11 / 10) 0) 4 4) 1 ≤ 2) ∧
    ∃ g' unit' out, LinkTrig_next 2 LinkUGen.init ⟨1 / 10, 0⟩ host44k
        (constTimeline (11 / 10) 0) 4 1 4 = some (g', unit', out) ∧ out.length = 4 := by
  have h1 : fmod (1 / 10) 1 = some (1 / 10) := by norm_num [fmod, truncQ]
  have h2 : clickIterations (1 / 10)
      (beatsAtBufferEnd ⟨1 / 10, 0⟩ host44k (constTimeline (11 / 10) 0) 4 4) 1 ≤ 2 := by
    norm_num [clickIterations, fmod, truncQ, beatsAtBufferEnd, constTimeline, Int.ceil_le]
  refine ⟨⟨by norm_num, by norm_num, by norm_num, h1, h2⟩, ?_⟩
  obtain ⟨g', unit', out, hrun, hlen, -⟩ :=
    LinkTrig_next_one_iff_offset 2 LinkUGen.init ⟨1 / 10, 0⟩ host44k
      (constTimeline (11 / 10) 0) 4 1 (1 / 10) 4 (by norm_num) (by norm_num) (by norm_num) h1 h2
  exact ⟨g', unit', out, hrun, hlen⟩

/-! ## C7 and C8: degenerate buffers -/

theorem eq_replicate_zero {n : ℕ} {out : List ℚ} (hlen : out.length = n)
    (h : ∀ i, i < n → out[i]? = some 0) : out = List.replicate n 0 := by
  apply List.ext_getElem?
  intro i
  by_cases hi : i < n
  · rw [h i hi]; simp [hi]
  · rw [List.getElem?_eq_none (by omega), List.getElem?_eq_none (by simp; omega)]

/-- With the session present and a positive `beatsPerClick`, a buffer in which
no visited click has an offset in the buffer comes out all zero. -/
theorem LinkTrig_next_silent (fuel : ℕ) (g : LinkUGen) (unit : LinkTrig) (host : Host)
    (tl : Timeline) (quantum beatsPerClick : ℚ) (n : ℕ) (hp : 0 < beatsPerClick)
    (hfuel : clickIterations unit.mBeats (beatsAtBufferEnd unit host tl quantum n) beatsPerClick
      ≤ fuel)
    (hno : ∀ (c : ℚ) (i : ℕ), i < n → c < beatsAtBufferEnd unit host tl quantum n →
      0 < beatsAtBufferEnd unit host tl quantum n →
      clickOffset (samplesPerBeat n (beatsAtBufferEnd unit host tl quantum n - unit.mBeats))
        c unit.mBeats ≠ some (i : ℤ)) :
    ∃ g' unit', LinkTrig_next fuel g unit host tl quantum beatsPerClick n =
        some (g', unit', List.replicate n 0) ∧
      unit'.mBeats = (if g.sLink.isSome then beatsAtBufferEnd unit host tl quantum n
        else unit.mBeats) ∧
      unit'.mBeatTimeOffset = unit.mBeatTimeOffset := by
  cases hl : g.sLink with
  | none =>
    exact ⟨g, unit, LinkTrig_next_null fuel g unit host tl _ _ n hl, by simp, rfl⟩
  | some l =>
    obtain ⟨out, hrun, hlen, hspec⟩ :=
      LinkTrig_next_spec fuel g l unit host tl quantum beatsPerClick _ n hl hp
        (fmod_pos hp) hfuel
    have hz : out = List.replicate n 0 := by
      apply eq_replicate_zero hlen
      intro i hi
      apply (hspec i hi).2
      rintro ⟨k, hk, he, ho⟩
      exact hno _ i hi hk he ho
    rw [hz] at hrun
    exact ⟨_, _, hrun, by simp, rfl⟩

/-- C7.  For `quantum > 0`, `beatsPerClick > 0` and `numSamples ≥ 1`, if
`beatsAtBufferEnd` equals `beatsAtBufferBegin` (the stored `mBeats`: a clock
stall), `LinkTrig_next` returns an all-zero buffer and `mBeats` has the same
value after the call as before. -/
theorem LinkTrig_next_stall (fuel : ℕ) (g : LinkUGen) (unit : LinkTrig) (host : Host)
    (tl : Timeline) (quantum beatsPerClick : ℚ) (n : ℕ)
    (_hq : 0 < quantum) (hp : 0 < beatsPerClick) (_hn : 1 ≤ n)
    (hstall : beatsAtBufferEnd unit host tl quantum n = unit.mBeats)
    (hfuel : clickIterations unit.mBeats (beatsAtBufferEnd unit host tl quantum n) beatsPerClick
      ≤ fuel) :
    ∃ g' unit', LinkTrig_next fuel g unit host tl quantum beatsPerClick n =
        some (g', unit', List.replicate n 0) ∧ unit'.mBeats = unit.mBeats := by
  obtain ⟨g', unit', hrun, hb, -⟩ :=
    LinkTrig_next_silent fuel g unit host tl quantum beatsPerClick n hp hfuel (by
      intro c i _ _ _
      simp [hstall, samplesPerBeat, clickOffset])
  refine ⟨g', unit', hrun, ?_⟩
  rw [hb, hstall]
  simp

/-- C7 at a concrete stalled buffer: `mBeats = 1/2` and the timeline still at
beat `1/2`; the loop body runs once, on the click at `0`. -/
theorem LinkTrig_next_stall_witness :
    ((0 : ℚ) < 4 ∧ (0 : ℚ) < 1 ∧ 1 ≤ 4 ∧
      beatsAtBufferEnd ⟨1 / 2, 0⟩ host44k (constTimeline (1 / 2) 0) 4 4 = 1 / 2 ∧
      clickIterations (1 / 2)
        (beatsAtBufferEnd ⟨1 / 2, 0⟩ host44k (constTimeline (1 / 2) 0) 4 4) 1 = 1) ∧
    ∃ g' unit', LinkTrig_next 1 LinkUGen.init ⟨1 / 2, 0⟩ host44k
        (constTimeline (1 / 2) 0) 4 1 4 = some (g', unit', [0, 0, 0, 0]) ∧
      unit'.mBeats = 1 / 2 := by
  have h1 : beatsAtBufferEnd ⟨1 / 2, 0⟩ host44k (constTimeline (1 / 2) 0) 4 4 = 1 / 2 := by
    norm_num [beatsAtBufferEnd, constTimeline]
  have h2 : clickIterations (1 / 2)
      (beatsAtBufferEnd ⟨1 / 2, 0⟩ host44k (constTimeline (1 / 2) 0) 4 4) 1 = 1 := by
    have hc : ⌈(1 / 2 : ℚ)⌉ = 1 := by rw [Int.ceil_eq_iff]; norm_num
    norm_num [clickIterations, fmod, truncQ, beatsAtBufferEnd, constTimeline, hc]
  exact ⟨⟨by norm_num, by norm_num, by norm_num, h1, h2⟩,
    LinkTrig_next_stall 1 LinkUGen.init ⟨1 / 2, 0⟩ host44k (constTimeline (1 / 2) 0) 4 1 4
      (by norm_num) (by norm_num) (by norm_num) h1 h2.le⟩

/-- C8.  For `quantum > 0`, `beatsPerClick > 0` and `numSamples ≥ 1`, if
`beatsAtBufferEnd - beatsAtBufferBegin` is negative, `LinkTrig_next` places no
trigger: every sample of the output is `0`. -/
theorem LinkTrig_next_backwards (fuel : ℕ) (g : LinkUGen) (unit : LinkTrig) (host : Host)
    (tl : Timeline) (quantum beatsPerClick : ℚ) (n : ℕ)
    (_hq : 0 < quantum) (hp : 0 < beatsPerClick) (_hn : 1 ≤ n)
    (hback : beatsAtBufferEnd unit host tl quantum n - unit.mBeats < 0)
    (hfuel : clickIterations unit.mBeats (beatsAtBufferEnd unit host tl quantum n) beatsPerClick
      ≤ fuel) :
    ∃ g' unit', LinkTrig_next fuel g unit host tl quantum beatsPerClick n =
      some (g', unit', List.replicate n 0) := by
  obtain ⟨g', unit', hrun, -, -⟩ :=
    LinkTrig_next_silent fuel g unit host tl quantum beatsPerClick n hp hfuel (by
      intro c i hi hc _
      have hd : beatsAtBufferEnd unit host tl quantum n - unit.mBeats ≠ 0 := hback.ne
      simp only [samplesPerBeat, if_neg hd, clickOffset, ne_eq, Option.some.injEq]
      intro ho
      have hnd : (n : ℚ) / (beatsAtBufferEnd unit host tl quantum n - unit.mBeats) ≤ 0 :=
        div_nonpos_of_nonneg_of_nonpos (by positivity) hback.le
      have hx : (n : ℚ) ≤ (n : ℚ) / (beatsAtBufferEnd unit host tl quantum n - unit.mBeats)
          * (c - unit.mBeats) := by
        have := mul_le_mul_of_nonpos_left
          (show c - unit.mBeats ≤ beatsAtBufferEnd unit host tl quantum n - unit.mBeats by
            linarith) hnd
        rwa [div_mul_cancel₀ _ hd] at this
      have := lround_mono hx
      rw [ho] at this
      have h3 : lround ((n : ℚ)) = (n : ℤ) := by exact_mod_cast lround_intCast (n : ℤ)
      rw [h3] at this
      omega)
  exact ⟨g', unit', hrun⟩

/-- C8 at a concrete buffer that runs backwards from beat `59/10` to `11/2`:
the loop body runs once, on the click at `5`, whose offset `9` is discarded. -/
theorem LinkTrig_next_backwards_witness :
    ((0 : ℚ) < 4 ∧ (0 : ℚ) < 1 ∧ 1 ≤ 4 ∧
      beatsAtBufferEnd ⟨59 / 10, 0⟩ host44k (constTimeline (11 / 2) 0) 4 4 - 59 / 10 < 0 ∧
      clickIterations (59 / 10)
        (beatsAtBufferEnd ⟨59 / 10, 0⟩ host44k (constTimeline (11 / 2) 0) 4 4) 1 = 1) ∧
    ∃ g' unit', LinkTrig_next 1 LinkUGen.init ⟨59 / 10, 0⟩ host44k
        (constTimeline (11 / 2) 0) 4 1 4 = some (g', unit', [0, 0, 0, 0]) := by
  have h1 : beatsAtBufferEnd ⟨59 / 10, 0⟩ host44k (constTimeline (11 / 2) 0) 4 4
      - 59 / 10 < 0 := by
    norm_num [beatsAtBufferEnd, constTimeline]
  have h2 : clickIterations (59 / 10)
      (beatsAtBufferEnd ⟨59 / 10, 0⟩ host44k (constTimeline (11 / 2) 0) 4 4) 1 = 1 := by
    have hc : ⌈(1 / 2 : ℚ)⌉ = 1 := by rw [Int.ceil_eq_iff]; norm_num
    norm_num [clickIterations, fmod, truncQ, beatsAtBufferEnd, constTimeline, hc]
  exact ⟨⟨by norm_num, by norm_num, by norm_num, h1, h2⟩,
    LinkTrig_next_backwards 1 LinkUGen.init ⟨59 / 10, 0⟩ host44k (constTimeline (11 / 2) 0) 4 1 4
      (by norm_num) (by norm_num) (by norm_num) h1 h2.le⟩

/-! ## C1: the impulses and the click grid -/

theorem truncQ_spec (x : ℚ) :
    (0 ≤ x → (truncQ x : ℚ) ≤ x ∧ x < (truncQ x : ℚ) + 1) ∧
    (x < 0 → x ≤ (truncQ x : ℚ) ∧ (truncQ x : ℚ) < x + 1) := by
  constructor
  · intro hx
    simp only [truncQ, if_pos hx]
    exact ⟨Int.floor_le x, Int.lt_floor_add_one x⟩
  · intro hx
    simp only [truncQ, if_neg (not_le.mpr hx)]
    exact ⟨Int.le_ceil x, Int.ceil_lt_add_one x⟩

/-- The start of the click loop `B - fmod(B, p)` is the grid point
`trunc(B / p) * p`; the remainder has the sign of `B` and is smaller than `p`;
and every grid point at or after `B` is at or after the start. -/
theorem fmod_start {B p r : ℚ} (hp : 0 < p) (hr : fmod B p = some r) :
    B - r = (truncQ (B / p) : ℚ) * p ∧
    (0 ≤ B → 0 ≤ r ∧ r < p) ∧ (B < 0 → -p < r ∧ r ≤ 0) ∧
    ∀ m : ℤ, B ≤ (m : ℚ) * p → truncQ (B / p) ≤ m := by
  rw [fmod_pos hp] at hr
  have hr' : r = B - p * (truncQ (B / p) : ℚ) := (Option.some.inj hr).symm
  refine ⟨by rw [hr']; ring, ?_, ?_, ?_⟩
  · intro hB
    obtain ⟨h1, h2⟩ := (truncQ_spec (B / p)).1 (div_nonneg hB hp.le)
    rw [le_div_iff₀ hp] at h1
    rw [div_lt_iff₀ hp] at h2
    constructor <;> rw [hr'] <;> nlinarith
  · intro hB
    obtain ⟨h1, h2⟩ := (truncQ_spec (B / p)).2 (div_neg_of_neg_of_pos hB hp)
    rw [div_le_iff₀ hp] at h1
    have h3 : (truncQ (B / p) : ℚ) * p < B + p := by
      have := mul_lt_mul_of_pos_right h2 hp
      rw [add_mul, div_mul_cancel₀ _ hp.ne', one_mul] at this
      exact this
    constructor <;> rw [hr'] <;> nlinarith
  · intro m hm
    have hm' : B / p ≤ (m : ℚ) := by rw [div_le_iff₀ hp]; exact hm
    by_cases hx : 0 ≤ B / p
    · have := ((truncQ_spec (B / p)).1 hx).1
      exact_mod_cast this.trans hm'
    · simp only [truncQ, if_neg hx]
      exact Int.ceil_le.mpr hm'

/-- For a buffer `[B, E)` of positive length that ends after beat zero, the
clicks visited by the loop are the grid points in `[B, E)` and, when `B` is
positive and off the grid, the grid point just before `B`, which hits sample
`0` when it lies less than half a sample before `B`. -/
theorem hitsFrom_grid {B E p r : ℚ} {n i : ℕ} (hp : 0 < p) (hn : 1 ≤ n) (hlt : B < E)
    (hpos : 0 < E) (hr : fmod B p = some r) :
    hitsFrom B E p (samplesPerBeat n (E - B)) (B - r) i ↔
      (∃ m : ℤ, B ≤ (m : ℚ) * p ∧ (m : ℚ) * p < E ∧
        lround ((n : ℚ) * ((m : ℚ) * p - B) / (E - B)) = (i : ℤ)) ∨
      (i = 0 ∧ 0 < r ∧ (n : ℚ) * r / (E - B) < 1 / 2) := by
  have hdpos : 0 < E - B := by linarith
  have hd : E - B ≠ 0 := hdpos.ne'
  have hnpos : (0 : ℚ) < (n : ℚ) := by exact_mod_cast hn
  obtain ⟨hst, hnn, hneg, hmin⟩ := fmod_start hp hr
  simp only [hitsFrom, samplesPerBeat, if_neg hd, clickOffset, Option.some.injEq]
  constructor
  · rintro ⟨k, hk, -, ho⟩
    by_cases hc : B ≤ B - r + (k : ℚ) * p
    · left
      have e1 : ((truncQ (B / p) + (k : ℤ) : ℤ) : ℚ) * p = B - r + (k : ℚ) * p := by
        push_cast; rw [hst]; ring
      refine ⟨truncQ (B / p) + (k : ℤ), by rw [e1]; exact hc, by rw [e1]; exact hk, ?_⟩
      rw [e1, ← ho]
      congr 1
      ring
    · right
      push_neg at hc
      have hkp : (k : ℚ) * p < r := by linarith
      have hk0' : (0 : ℚ) ≤ (k : ℚ) * p := by positivity
      have hB : 0 ≤ B := by
        by_contra hB
        have := (hneg (not_le.mp hB)).2
        linarith
      have hk0 : k = 0 := by
        by_contra hk0
        have h1 : (1 : ℚ) ≤ (k : ℚ) := by exact_mod_cast Nat.one_le_iff_ne_zero.mpr hk0
        have := (hnn hB).2
        nlinarith
      subst hk0
      have hrpos : 0 < r := by simpa using hkp
      have hy : 0 < (n : ℚ) * r / (E - B) := by positivity
      have e2 : (n : ℚ) / (E - B) * (B - r + ((0 : ℕ) : ℚ) * p - B) = -((n : ℚ) * r / (E - B)) := by
        push_cast; ring
      rw [e2, lround_neg (by linarith), neg_neg] at ho
      have hf0 : (0 : ℤ) ≤ ⌊(n : ℚ) * r / (E - B) + 1 / 2⌋ := Int.floor_nonneg.mpr (by linarith)
      have hf : ⌊(n : ℚ) * r / (E - B) + 1 / 2⌋ = 0 := by omega
      rw [Int.floor_eq_zero_iff] at hf
      have := hf.2
      exact ⟨by omega, hrpos, by linarith⟩
  · rintro (⟨m, hm1, hm2, ho⟩ | ⟨hi0, hrpos, hy⟩)
    · have htm := hmin m hm1
      have hc : (((m - truncQ (B / p)).toNat : ℕ) : ℚ) = (m : ℚ) - (truncQ (B / p) : ℚ) := by
        have : (((m - truncQ (B / p)).toNat : ℕ) : ℤ) = m - truncQ (B / p) :=
          Int.toNat_of_nonneg (by omega)
        exact_mod_cast this
      have e1 : B - r + (((m - truncQ (B / p)).toNat : ℕ) : ℚ) * p = (m : ℚ) * p := by
        rw [hc, hst]; ring
      refine ⟨(m - truncQ (B / p)).toNat, by rw [e1]; exact hm2, hpos, ?_⟩
      rw [e1, ← ho]
      congr 1
      ring
    · subst hi0
      have hy0 : 0 < (n : ℚ) * r / (E - B) := by positivity
      have e2 : (n : ℚ) / (E - B) * (B - r + ((0 : ℕ) : ℚ) * p - B) = -((n : ℚ) * r / (E - B)) := by
        push_cast; ring
      refine ⟨0, by push_cast; linarith, hpos, ?_⟩
      rw [e2, lround_neg (by linarith), neg_neg]
      have hf : ⌊(n : ℚ) * r / (E - B) + 1 / 2⌋ = 0 := by
        rw [Int.floor_eq_zero_iff]
        constructor <;> linarith
      rw [hf]
      rfl

/-- C1, as the code has it.  For `quantum > 0`, `beatsPerClick > 0`,
`numSamples ≥ 1`, the session present and a buffer with
`beatsAtBufferBegin < beatsAtBufferEnd` and `beatsAtBufferEnd > 0`, sample `i` of
the output of `LinkTrig_next` is `1` if and only if either some click-grid
boundary `b = m * beatsPerClick` with `beatsAtBufferBegin ≤ b < beatsAtBufferEnd`
has `lround(numSamples * (b - beatsAtBufferBegin) / (beatsAtBufferEnd -
beatsAtBufferBegin)) = i` (a boundary whose offset rounds to `numSamples` sets
no sample of this buffer), or `i = 0` and the grid boundary before
`beatsAtBufferBegin` lies less than half a sample before it; all other samples
are `0`. -/
theorem LinkTrig_next_grid (fuel : ℕ) (g : LinkUGen) (l : Link) (unit : LinkTrig) (host : Host)
    (tl : Timeline) (quantum beatsPerClick r E : ℚ) (n : ℕ)
    (_hq : 0 < quantum) (hp : 0 < beatsPerClick) (hn : 1 ≤ n) (hl : g.sLink = some l)
    (hE : beatsAtBufferEnd unit host tl quantum n = E)
    (hlt : unit.mBeats < E) (hpos : 0 < E)
    (hr : fmod unit.mBeats beatsPerClick = some r)
    (hfuel : clickIterations unit.mBeats E beatsPerClick ≤ fuel) :
    ∃ g' unit' out, LinkTrig_next fuel g unit host tl quantum beatsPerClick n =
        some (g', unit', out) ∧
      out.length = n ∧
      ∀ i, i < n →
        (out[i]? = some 1 ↔
          (∃ m : ℤ, unit.mBeats ≤ (m : ℚ) * beatsPerClick ∧ (m : ℚ) * beatsPerClick < E ∧
            lround ((n : ℚ) * ((m : ℚ) * beatsPerClick - unit.mBeats) / (E - unit.mBeats))
              = (i : ℤ)) ∨
          (i = 0 ∧ 0 < r ∧ (n : ℚ) * r / (E - unit.mBeats) < 1 / 2)) ∧
        (out[i]? = some 1 ∨ out[i]? = some 0) := by
  subst hE
  obtain ⟨out, hrun, hlen, hspec⟩ :=
    LinkTrig_next_spec fuel g l unit host tl quantum beatsPerClick r n hl hp hr hfuel
  refine ⟨_, _, out, hrun, hlen, fun i hi => ?_⟩
  obtain ⟨h1, h0⟩ := hspec i hi
  rw [← hitsFrom_grid hp hn hlt hpos hr]
  by_cases hh : hitsFrom unit.mBeats (beatsAtBufferEnd unit host tl quantum n) beatsPerClick
      (samplesPerBeat n (beatsAtBufferEnd unit host tl quantum n - unit.mBeats))
      (unit.mBeats - r) i
  · exact ⟨⟨fun _ => hh, fun _ => h1 hh⟩, Or.inl (h1 hh)⟩
  · refine ⟨⟨fun h => ?_, fun h => absurd h hh⟩, Or.inr (h0 hh)⟩
    rw [h0 hh] at h
    simp at h

/-- The amended C1 at a concrete buffer: beats `[1/2, 3/2)`, four samples, one
click per beat; the grid boundary `1` sets sample `2`. -/
theorem LinkTrig_next_grid_witness :
    ((0 : ℚ) < 4 ∧ (0 : ℚ) < 1 ∧ 1 ≤ 4 ∧
      LinkUGen.init.sLink = some { enabled := false, calls := [] } ∧
      beatsAtBufferEnd ⟨1 / 2, 0⟩ host44k (constTimeline (3 / 2) 0) 4 4 = 3 / 2 ∧
      (1 / 2 : ℚ) < 3 / 2 ∧ (0 : ℚ) < 3 / 2 ∧ fmod (1 / 2) 1 = some (1 / 2) ∧
      clickIterations (1 / 2) (3 / 2) 1 ≤ 2) ∧
    ∃ g' unit' out, LinkTrig_next 2 LinkUGen.init ⟨1 / 2, 0⟩ host44k
        (constTimeline (3 / 2) 0) 4 1 4 = some (g', unit', out) ∧ out.length = 4 := by
  have h1 : beatsAtBufferEnd ⟨1 / 2, 0⟩ host44k (constTimeline (3 / 2) 0) 4 4 = 3 / 2 := by
    norm_num [beatsAtBufferEnd, constTimeline]
  have h2 : fmod (1 / 2) 1 = some (1 / 2) := by norm_num [fmod, truncQ]
  have h3 : clickIterations (1 / 2) (3 / 2) 1 ≤ 2 := by
    norm_num [clickIterations, fmod, truncQ, Int.ceil_le]
  refine ⟨⟨by norm_num, by norm_num, by norm_num, rfl, h1, by norm_num, by norm_num, h2, h3⟩, ?_⟩
  obtain ⟨g', unit', out, hrun, hlen, -⟩ :=
    LinkTrig_next_grid 2 LinkUGen.init _ ⟨1 / 2, 0⟩ host44k (constTimeline (3 / 2) 0) 4 1
      (1 / 2) (3 / 2) 4 (by norm_num) (by norm_num) (by norm_num) rfl h1 (by norm_num)
      (by norm_num) h2 h3
  exact ⟨g', unit', out, hrun, hlen⟩

/-- C1 as stated fails on the code.  (1) Beats `[-3/2, -1/2)`, four samples, one
click per beat: the grid boundary `-1` lies in the buffer and its nearest sample
index is `2`, yet the output is all zero (the loop requires
`beatsAtBufferEnd > 0`).  (2) Beats `[1/10, 11/10)`: the grid boundary `1` lies
in the buffer and is the only one that does, its offset rounds to `4` and is
discarded, so sample `3` is `0`, while sample `0` is `1` for the boundary `0`,
which lies before the buffer. -/
theorem LinkTrig_next_grid_counterexample :
    ((-3 / 2 : ℚ) ≤ ((-1 : ℤ) : ℚ) * 1 ∧ ((-1 : ℤ) : ℚ) * 1 < -1 / 2 ∧
      lround ((4 : ℚ) * (((-1 : ℤ) : ℚ) * 1 - (-3 / 2)) / (-1 / 2 - (-3 / 2))) = 2 ∧
      (LinkTrig_next 0 LinkUGen.init ⟨-3 / 2, 0⟩ host44k (constTimeline (-1 / 2) 0) 4 1 4).map
        (fun res => res.2.2) = some [0, 0, 0, 0]) ∧
    ((1 / 10 : ℚ) ≤ ((1 : ℤ) : ℚ) * 1 ∧ ((1 : ℤ) : ℚ) * 1 < 11 / 10 ∧
      lround ((4 : ℚ) * (((1 : ℤ) : ℚ) * 1 - 1 / 10) / (11 / 10 - 1 / 10)) = 4 ∧
      (∀ m : ℤ, (1 / 10 : ℚ) ≤ (m : ℚ) * 1 → (m : ℚ) * 1 < 11 / 10 → m = 1) ∧
      (LinkTrig_next 2 LinkUGen.init ⟨1 / 10, 0⟩ host44k (constTimeline (11 / 10) 0) 4 1 4).map
        (fun res => res.2.2) = some [1, 0, 0, 0]) := by
  refine ⟨⟨by norm_num, by norm_num, ?_, ?_⟩, by norm_num, by norm_num, ?_, ?_, ?_⟩
  · norm_num [lround]
  · norm_num [LinkTrig_next, LinkUGen.init, fmod, truncQ, clickLoop, beatsAtBufferEnd,
      constTimeline]
    rfl
  · norm_num [lround]
  · intro m h1 h2
    have h3 : (0 : ℚ) < (m : ℚ) := by linarith
    have h4 : (m : ℚ) < 2 := by linarith
    have h5 : 0 < m := by exact_mod_cast h3
    have h6 : m < 2 := by exact_mod_cast h4
    omega
  · norm_num [LinkTrig_next, LinkUGen.init, fmod, truncQ, clickLoop, beatsAtBufferEnd,
      constTimeline, samplesPerBeat, clickOffset, writeClick, lround]
    rfl

/-! ## C3 and C4: anchoring in `LinkTrig_Ctor` -/

/-- C3 fails on the code.  `LinkTrig_Ctor` run on the initial state (no
instance, session not yet enabled) with `quantum = 4` and a timeline at beat
`5/2`: `LinkUgen_Ctor` has already made the count `1` when `sNumInstances == 0`
is tested, so the session receives `enable(true)` and the capture only, no
`requestBeatAtTime` and no commit, and `mBeatTimeOffset` is `4`, not `0`. -/
theorem LinkTrig_Ctor_first_instance :
    LinkTrig_Ctor LinkUGen.init ⟨0, 0⟩ host44k (constTimeline (5 / 2) 0) 4 =
      some ({ sLink := some { enabled := true,
                              calls := [LinkCall.enable true, LinkCall.captureAudioTimeline] },
              sNumInstances := 1 },
            { mBeats := 0, mBeatTimeOffset := 4 }, 0) := by
  norm_num [LinkTrig_Ctor, LinkUgen_Ctor, LinkUGen.init, Link.isEnabled, Link.enable, Link.record,
    fmod, truncQ, constTimeline]

/-- C4, as the code has it.  When `LinkTrig_Ctor` runs with the session present
and a count `sNumInstances` with `1 ≤ sNumInstances` and
`sNumInstances + 1 < 2 ^ 32` (the increment does not wrap), the only calls it
adds to the session are `enable(true)`, if the session was not enabled, and
the capture of the timeline: no anchor request and no commit; and
`mBeatTimeOffset = currentBeats + quantum - fmod(currentBeats, quantum)`. -/
theorem LinkTrig_Ctor_late_join (g : LinkUGen) (l : Link) (unit : LinkTrig) (host : Host)
    (tl : Timeline) (quantum r : ℚ)
    (hl : g.sLink = some l) (h1 : 1 ≤ g.sNumInstances) (h2 : g.sNumInstances + 1 < 2 ^ 32)
    (hr : fmod (tl.beatAtTime (timeAtBufferBegin host) quantum) quantum = some r) :
    ∃ g' l' unit' z, LinkTrig_Ctor g unit host tl quantum = some (g', unit', z) ∧
      g'.sLink = some l' ∧
      l'.calls = l.calls ++ (if l.enabled then [] else [LinkCall.enable true])
        ++ [LinkCall.captureAudioTimeline] ∧
      g'.sNumInstances = g.sNumInstances + 1 ∧
      unit'.mBeatTimeOffset = tl.beatAtTime (timeAtBufferBegin host) quantum + quantum - r := by
  have hc : (g.sNumInstances + 1) % 4294967296 = g.sNumInstances + 1 := by omega
  cases he : l.enabled with
  | true =>
    refine ⟨⟨some (l.record LinkCall.captureAudioTimeline), g.sNumInstances + 1⟩,
      l.record LinkCall.captureAudioTimeline,
      { unit with
          mBeatTimeOffset := tl.beatAtTime (timeAtBufferBegin host) quantum + quantum - r },
      0, ?_, rfl, ?_, rfl, rfl⟩
    · simp [LinkTrig_Ctor, LinkUgen_Ctor, hl, Link.isEnabled, he, hc, hr]
    · simp [Link.record]
  | false =>
    refine ⟨⟨some ((l.enable true).record LinkCall.captureAudioTimeline), g.sNumInstances + 1⟩,
      (l.enable true).record LinkCall.captureAudioTimeline,
      { unit with
          mBeatTimeOffset := tl.beatAtTime (timeAtBufferBegin host) quantum + quantum - r },
      0, ?_, rfl, ?_, rfl, rfl⟩
    · simp [LinkTrig_Ctor, LinkUgen_Ctor, hl, Link.isEnabled, he, hc, hr]
    · simp [Link.record, Link.enable]

/-- The amended C4 at a concrete state: one instance alive, session enabled. -/
theorem LinkTrig_Ctor_late_join_witness :
    ((⟨some ⟨true, [LinkCall.enable true]⟩, 1⟩ : LinkUGen).sLink
        = some ⟨true, [LinkCall.enable true]⟩ ∧
      1 ≤ (⟨some ⟨true, [LinkCall.enable true]⟩, 1⟩ : LinkUGen).sNumInstances ∧
      (⟨some ⟨true, [LinkCall.enable true]⟩, 1⟩ : LinkUGen).sNumInstances + 1 < 2 ^ 32 ∧
      fmod ((constTimeline (5 / 2) 0).beatAtTime (timeAtBufferBegin host44k) 4) 4
        = some (5 / 2)) ∧
    ∃ g' l' unit' z, LinkTrig_Ctor ⟨some ⟨true, [LinkCall.enable true]⟩, 1⟩ ⟨0, 0⟩ host44k
        (constTimeline (5 / 2) 0) 4 = some (g', unit', z) ∧
      g'.sLink = some l' ∧
      l'.calls = [LinkCall.enable true, LinkCall.captureAudioTimeline] ∧
      unit'.mBeatTimeOffset = 4 := by
  have hr : fmod ((constTimeline (5 / 2) 0).beatAtTime (timeAtBufferBegin host44k) 4) 4
      = some (5 / 2) := by
    norm_num [fmod, truncQ, constTimeline]
  refine ⟨⟨rfl, by norm_num, by norm_num, hr⟩, ?_⟩
  obtain ⟨g', l', unit', z, hrun, hs, hcalls, -, hoff⟩ :=
    LinkTrig_Ctor_late_join ⟨some ⟨true, [LinkCall.enable true]⟩, 1⟩
      ⟨true, [LinkCall.enable true]⟩ ⟨0, 0⟩ host44k (constTimeline (5 / 2) 0) 4 (5 / 2)
      rfl (by norm_num) (by norm_num) hr
  refine ⟨g', l', unit', z, hrun, hs, ?_, ?_⟩
  · rw [hcalls]; rfl
  · rw [hoff]; norm_num [constTimeline]

/-- C4 as stated fails on the code at the count `2 ^ 32 - 1`: the increment of
the `uint32` counter wraps to `0`, the test `sNumInstances == 0` succeeds, and
the constructor issues the anchor request and the commit and sets
`mBeatTimeOffset = 0` (the late-join value would be `5/2 + 4 - 5/2 = 4`). -/
theorem LinkTrig_Ctor_late_join_counterexample :
    1 ≤ (⟨some ⟨true, []⟩, 4294967295⟩ : LinkUGen).sNumInstances ∧
    LinkTrig_Ctor ⟨some ⟨true, []⟩, 4294967295⟩ ⟨0, 0⟩ host44k (constTimeline (5 / 2) 0) 4 =
      some ({ sLink := some { enabled := true,
                              calls := [LinkCall.captureAudioTimeline,
                                LinkCall.requestBeatAtTime 0 0 4,
                                LinkCall.commitAudioTimeline] },
              sNumInstances := 0 },
            { mBeats := 0, mBeatTimeOffset := 0 }, 0) := by
  refine ⟨by norm_num, ?_⟩
  norm_num [LinkTrig_Ctor, LinkUgen_Ctor, Link.isEnabled, Link.record, timeAtBufferBegin,
    bufferTimeOffset, host44k, lround]

/-! ## C6: the session is enabled exactly while instances are alive -/

theorem le_peakLive (c : ℕ) (ops : List Op) : c ≤ peakLive c ops := by
  cases ops with
  | nil => exact le_refl c
  | cons op ops => cases op <;> exact le_max_left _ _

/-- An acquire that does not wrap the counter keeps the invariant. -/
theorem LinkUgen_Ctor_inv (g : LinkUGen) (l : Link) (hl : g.sLink = some l)
    (hc : g.sNumInstances + 1 < 2 ^ 32) :
    ∃ l', (LinkUgen_Ctor g).sLink = some l' ∧
      (LinkUgen_Ctor g).sNumInstances = g.sNumInstances + 1 ∧
      (l'.enabled = true ↔ 0 < (LinkUgen_Ctor g).sNumInstances) := by
  have hm : (g.sNumInstances + 1) % 4294967296 = g.sNumInstances + 1 := by omega
  cases he : l.enabled with
  | true =>
    exact ⟨l, by simp [LinkUgen_Ctor, hl, Link.isEnabled, he], by simp [LinkUgen_Ctor, hm],
      by simp [LinkUgen_Ctor, hm, he]⟩
  | false =>
    exact ⟨l.enable true, by simp [LinkUgen_Ctor, hl, Link.isEnabled, he],
      by simp [LinkUgen_Ctor, hm], by simp [LinkUgen_Ctor, hm, Link.enable]⟩

/-- A release with a live instance keeps the invariant. -/
theorem LinkUGen_Dtor_inv (g : LinkUGen) (l : Link) (hl : g.sLink = some l)
    (hinv : l.enabled = true ↔ 0 < g.sNumInstances) (h0 : 0 < g.sNumInstances)
    (hc : g.sNumInstances < 2 ^ 32) :
    ∃ g' l', LinkUGen_Dtor g = some g' ∧ g'.sLink = some l' ∧
      g'.sNumInstances = g.sNumInstances - 1 ∧
      (l'.enabled = true ↔ 0 < g'.sNumInstances) := by
  have hm : (g.sNumInstances + 4294967295) % 4294967296 = g.sNumInstances - 1 := by omega
  by_cases h1 : g.sNumInstances - 1 = 0
  · exact ⟨⟨some (l.enable false), 0⟩, l.enable false,
      by simp [LinkUGen_Dtor, hm, h1, hl], rfl, h1.symm, by simp [Link.enable]⟩
  · refine ⟨{ g with sNumInstances := g.sNumInstances - 1 }, l,
      by simp [LinkUGen_Dtor, hm, h1], hl, rfl, ?_⟩
    have : l.enabled = true := hinv.mpr h0
    simp only [this, true_iff]
    omega

/-- A release that leaves the count positive does not touch the session. -/
theorem LinkUGen_Dtor_keeps (g g' : LinkUGen) (h : LinkUGen_Dtor g = some g')
    (hpos : 0 < g'.sNumInstances) : g'.sLink = g.sLink := by
  unfold LinkUGen_Dtor at h
  by_cases h0 : (g.sNumInstances + (2 ^ 32 - 1)) % 2 ^ 32 = 0
  · rw [if_pos h0] at h
    cases hl : g.sLink with
    | none => rw [hl] at h; simp at h
    | some l =>
      rw [hl] at h
      simp only [Option.some.injEq] at h
      rw [← h] at hpos
      simp at hpos
  · rw [if_neg h0] at h
    simp only [Option.some.injEq] at h
    rw [← h]

/-- The invariant along a sequence of operations in which every release has an
unmatched acquire before it and fewer than `2 ^ 32` instances are ever alive. -/
theorem run_inv : ∀ (pre post : List Op) (c : ℕ) (g : LinkUGen) (l : Link),
    g.sLink = some l → g.sNumInstances = c → (l.enabled = true ↔ 0 < c) →
    (liveAfter c (pre ++ post)).isSome = true → peakLive c (pre ++ post) < 2 ^ 32 →
    ∃ g' l' c', run g pre = some g' ∧ liveAfter c pre = some c' ∧ g'.sLink = some l' ∧
      g'.sNumInstances = c' ∧ (l'.enabled = true ↔ 0 < c') := by
  intro pre
  induction pre with
  | nil =>
    intro post c g l hl hc hinv _ _
    exact ⟨g, l, c, rfl, rfl, hl, hc, hinv⟩
  | cons op pre ih =>
    intro post c g l hl hc hinv hwf hpeak
    cases op with
    | acquire =>
      have hp1 : peakLive (c + 1) (pre ++ post) < 2 ^ 32 :=
        lt_of_le_of_lt (le_max_right _ _) hpeak
      have hc1 : c + 1 < 2 ^ 32 := lt_of_le_of_lt (le_peakLive _ _) hp1
      obtain ⟨l1, hl1, hn1, hinv1⟩ :=
        LinkUgen_Ctor_inv g l hl (by rw [hc]; exact hc1)
      rw [hc] at hn1
      rw [hn1] at hinv1
      obtain ⟨g', l', c', hrun, hlive, hl', hn', hinv'⟩ :=
        ih post (c + 1) (LinkUgen_Ctor g) l1 hl1 hn1 hinv1 hwf hp1
      exact ⟨g', l', c', by simp only [run, step, Option.some_bind, hrun], hlive, hl', hn', hinv'⟩
    | release =>
      have hc0 : c ≠ 0 := by
        intro h0
        simp [List.cons_append, liveAfter, h0] at hwf
      have hwf' : (liveAfter (c - 1) (pre ++ post)).isSome = true := by
        simpa [List.cons_append, liveAfter, hc0] using hwf
      have hp1 : peakLive (c - 1) (pre ++ post) < 2 ^ 32 :=
        lt_of_le_of_lt (le_max_right _ _) hpeak
      have hclt : c < 2 ^ 32 := lt_of_le_of_lt (le_max_left _ _) hpeak
      obtain ⟨g1, l1, hd, hl1, hn1, hinv1⟩ :=
        LinkUGen_Dtor_inv g l hl (by rw [hc]; exact hinv) (by rw [hc]; omega)
          (by rw [hc]; exact hclt)
      rw [hc] at hn1
      rw [hn1] at hinv1
      obtain ⟨g', l', c', hrun, hlive, hl', hn', hinv'⟩ :=
        ih post (c - 1) g1 l1 hl1 hn1 hinv1 hwf' hp1
      exact ⟨g', l', c', by simp only [run, step, hd, Option.some_bind, hrun],
        by simp only [liveAfter, if_neg hc0, hlive], hl', hn', hinv'⟩

theorem liveAfter_acquires (c k : ℕ) :
    liveAfter c (List.replicate k Op.acquire) = some (c + k) := by
  induction k generalizing c with
  | zero => rfl
  | succ k ih =>
    rw [List.replicate_succ, liveAfter, ih]
    congr 1
    omega

/-- The state after `k` acquires: the counter is `sNumInstances + k` modulo
`2 ^ 32` and, once an acquire has run, the session is enabled. -/
theorem run_acquires (k : ℕ) : ∀ (g : LinkUGen) (l : Link), g.sLink = some l →
    ∃ g' l', run g (List.replicate k Op.acquire) = some g' ∧ g'.sLink = some l' ∧
      g'.sNumInstances % 2 ^ 32 = (g.sNumInstances + k) % 2 ^ 32 ∧
      (0 < k → l'.enabled = true ∧ g'.sNumInstances < 2 ^ 32) := by
  induction k with
  | zero =>
    intro g l hl
    exact ⟨g, l, rfl, hl, rfl, fun h => absurd h (lt_irrefl 0)⟩
  | succ k ih =>
    intro g l hl
    have hn : (LinkUgen_Ctor g).sNumInstances = (g.sNumInstances + 1) % 2 ^ 32 := rfl
    have hl1 : ∃ l1, (LinkUgen_Ctor g).sLink = some l1 ∧ l1.enabled = true := by
      cases he : l.enabled with
      | true => exact ⟨l, by simp [LinkUgen_Ctor, hl, Link.isEnabled, he], he⟩
      | false => exact ⟨l.enable true, by simp [LinkUgen_Ctor, hl, Link.isEnabled, he], rfl⟩
    obtain ⟨l1, hl1, he1⟩ := hl1
    obtain ⟨g', l', hrun, hl', hmod, hen⟩ := ih (LinkUgen_Ctor g) l1 hl1
    refine ⟨g', l', ?_, hl', ?_, fun _ => ?_⟩
    · rw [List.replicate_succ]
      simp only [run, step, Option.some_bind, hrun]
    · rw [hmod, hn]
      omega
    · by_cases hk : 0 < k
      · exact hen hk
      · have hk0 : k = 0 := by omega
        subst hk0
        simp only [List.replicate_zero, run, Option.some.injEq] at hrun
        subst hrun
        rw [hl1] at hl'
        simp only [Option.some.injEq] at hl'
        subst hl'
        refine ⟨he1, ?_⟩
        rw [hn]
        exact Nat.mod_lt _ (by norm_num)

/-- C6, as the code has it.  The predicate `session.enabled == (count > 0)`
holds in the initial state and after every prefix `pre` of every sequence
`pre ++ post` of acquires (`LinkUgen_Ctor`) and releases (`LinkUGen_Dtor`) in
which each release has an unmatched acquire before it and fewer than `2 ^ 32`
instances are alive at any time, the count being the number of live instances;
and a release that leaves the count positive leaves the session as it is. -/
theorem session_enabled_iff_live (pre post : List Op)
    (hwf : (liveAfter 0 (pre ++ post)).isSome = true)
    (hpeak : peakLive 0 (pre ++ post) < 2 ^ 32) :
    (∃ l, LinkUGen.init.sLink = some l ∧
      (l.enabled = true ↔ 0 < LinkUGen.init.sNumInstances)) ∧
    (∃ g l c, run LinkUGen.init pre = some g ∧ liveAfter 0 pre = some c ∧
      g.sLink = some l ∧ g.sNumInstances = c ∧ (l.enabled = true ↔ 0 < g.sNumInstances)) ∧
    (∀ g g', LinkUGen_Dtor g = some g' → 0 < g'.sNumInstances → g'.sLink = g.sLink) := by
  refine ⟨⟨_, rfl, by simp [LinkUGen.init]⟩, ?_, LinkUGen_Dtor_keeps⟩
  obtain ⟨g, l, c, hrun, hlive, hl, hn, hinv⟩ :=
    run_inv pre post 0 LinkUGen.init _ rfl rfl (by simp) hwf hpeak
  exact ⟨g, l, c, hrun, hlive, hl, hn, by rw [hn]; exact hinv⟩

/-- The amended C6 on acquire, acquire, release, then release. -/
theorem session_enabled_iff_live_witness :
    ((liveAfter 0 ([Op.acquire, Op.acquire, Op.release] ++ [Op.release])).isSome = true ∧
      peakLive 0 ([Op.acquire, Op.acquire, Op.release] ++ [Op.release]) < 2 ^ 32) ∧
    ∃ g l, run LinkUGen.init [Op.acquire, Op.acquire, Op.release] = some g ∧
      g.sLink = some l ∧ g.sNumInstances = 1 ∧ l.enabled = true := by
  have h1 : (liveAfter 0 ([Op.acquire, Op.acquire, Op.release] ++ [Op.release])).isSome
      = true := by decide
  have h2 : peakLive 0 ([Op.acquire, Op.acquire, Op.release] ++ [Op.release]) < 2 ^ 32 := by
    decide
  refine ⟨⟨h1, h2⟩, ?_⟩
  obtain ⟨-, ⟨g, l, c, hrun, hlive, hl, hn, hinv⟩, -⟩ :=
    session_enabled_iff_live [Op.acquire, Op.acquire, Op.release] [Op.release] h1 h2
  have hc : c = 1 := by
    have : liveAfter 0 [Op.acquire, Op.acquire, Op.release] = some 1 := by decide
    rw [this] at hlive
    exact (Option.some.inj hlive).symm
  refine ⟨g, l, hrun, hl, by rw [hn, hc], ?_⟩
  rw [hn, hc] at hinv
  exact hinv.mpr (by norm_num)

/-- C6 as stated fails on the code: after `2 ^ 32` acquires from the initial
state (a sequence with no release at all) the `uint32` counter has wrapped to
`0` while the session is enabled. -/
theorem session_enabled_iff_live_counterexample :
    liveAfter 0 (List.replicate (2 ^ 32) Op.acquire) = some (2 ^ 32) ∧
    ∃ g l, run LinkUGen.init (List.replicate (2 ^ 32) Op.acquire) = some g ∧
      g.sLink = some l ∧ l.enabled = true ∧ g.sNumInstances = 0 := by
  constructor
  · have h := liveAfter_acquires 0 (2 ^ 32)
    rw [Nat.zero_add] at h
    exact h
  · obtain ⟨g, l, hrun, hl, hmod, hk⟩ := run_acquires (2 ^ 32) LinkUGen.init _ rfl
    obtain ⟨he, hlt⟩ := hk (by norm_num)
    refine ⟨g, l, hrun, hl, he, ?_⟩
    have h0 : LinkUGen.init.sNumInstances = 0 := rfl
    rw [h0] at hmod
    omega

/-! ## C5: `enable(true)` and `enable(false)` over constructions and destructions -/

theorem enableCalls_record (b : Bool) (l : Link) (c : LinkCall) (hc : ∀ b', c ≠ LinkCall.enable b') :
    enableCalls b (l.record c) = enableCalls b l := by
  have : (c == LinkCall.enable b) = false := by simpa using hc b
  simp [enableCalls, Link.record, List.count_append, List.count_cons, this]

theorem enableCalls_enable (b b' : Bool) (l : Link) :
    enableCalls b (l.enable b') = enableCalls b l + (if b' = b then 1 else 0) := by
  cases b <;> cases b' <;> simp [enableCalls, Link.enable, List.count_append, List.count_cons]

/-- What `LinkUgen_Ctor` does to a present session. -/
theorem LinkUgen_Ctor_session (g : LinkUGen) (l : Link) (hl : g.sLink = some l) :
    ∃ l', (LinkUgen_Ctor g).sLink = some l' ∧ l'.enabled = true ∧
      enableCalls true l' = enableCalls true l + (if l.enabled = true then 0 else 1) ∧
      enableCalls false l' = enableCalls false l := by
  cases he : l.enabled with
  | true => exact ⟨l, by simp [LinkUgen_Ctor, hl, Link.isEnabled, he], he, by simp, rfl⟩
  | false =>
    exact ⟨l.enable true, by simp [LinkUgen_Ctor, hl, Link.isEnabled, he], rfl,
      by simp [enableCalls_enable], by simp [enableCalls_enable]⟩

/-- One construction, of either kind, on a present session: the counter is
incremented modulo `2 ^ 32`, the session is enabled afterwards, `enable(true)`
is called when it was not enabled before, and `enable(false)` is not called. -/
theorem construct_spec (g : LinkUGen) (l : Link) (a : CtorArgs) (hl : g.sLink = some l)
    (hq : 0 < a.quantum) :
    ∃ g' l', construct g a = some g' ∧ g'.sLink = some l' ∧
      g'.sNumInstances = (g.sNumInstances + 1) % 2 ^ 32 ∧ l'.enabled = true ∧
      enableCalls true l' = enableCalls true l + (if l.enabled = true then 0 else 1) ∧
      enableCalls false l' = enableCalls false l := by
  obtain ⟨l1, hl1, he1, ht1, hf1⟩ := LinkUgen_Ctor_session g l hl
  have hn : (LinkUgen_Ctor g).sNumInstances = (g.sNumInstances + 1) % 2 ^ 32 := rfl
  have hrec : ∀ (b : Bool) (l2 : Link),
      enableCalls b (((l2.record LinkCall.captureAudioTimeline).record
        (LinkCall.requestBeatAtTime 0 (timeAtBufferBegin a.host) a.quantum)).record
        LinkCall.commitAudioTimeline) = enableCalls b l2 := by
    intro b l2
    rw [enableCalls_record _ _ _ (by simp), enableCalls_record _ _ _ (by simp),
      enableCalls_record _ _ _ (by simp)]
  have hrec1 : ∀ (b : Bool) (l2 : Link),
      enableCalls b (l2.record LinkCall.captureAudioTimeline) = enableCalls b l2 := by
    intro b l2
    rw [enableCalls_record _ _ _ (by simp)]
  by_cases h0 : (LinkUgen_Ctor g).sNumInstances = 0
  · refine ⟨{ LinkUgen_Ctor g with
        sLink := some (((l1.record LinkCall.captureAudioTimeline).record
          (LinkCall.requestBeatAtTime 0 (timeAtBufferBegin a.host) a.quantum)).record
          LinkCall.commitAudioTimeline) },
      ((l1.record LinkCall.captureAudioTimeline).record
        (LinkCall.requestBeatAtTime 0 (timeAtBufferBegin a.host) a.quantum)).record
        LinkCall.commitAudioTimeline, ?_, rfl, hn, he1, ?_, ?_⟩
    · cases hk : a.kind with
      | trig => simp only [construct, hk, LinkTrig_Ctor, hl1, if_pos h0, Option.map_some']
      | phase => simp only [construct, hk, LinkPhase_Ctor, hl1, if_pos h0, Option.map_some']
    · rw [hrec, ht1]
    · rw [hrec, hf1]
  · refine ⟨{ LinkUgen_Ctor g with sLink := some (l1.record LinkCall.captureAudioTimeline) },
      l1.record LinkCall.captureAudioTimeline, ?_, rfl, hn, he1, ?_, ?_⟩
    · cases hk : a.kind with
      | trig =>
        simp only [construct, hk, LinkTrig_Ctor, hl1, if_neg h0, fmod_pos hq, Option.map_some']
      | phase => simp only [construct, hk, LinkPhase_Ctor, hl1, if_neg h0, Option.map_some']
    · rw [hrec1, ht1]
    · rw [hrec1, hf1]

/-- One destruction, of either kind, on a present session: the counter is
decremented modulo `2 ^ 32` and `enable(false)` is called exactly when it
becomes `0`. -/
theorem destroy_spec (g : LinkUGen) (l : Link) (k : Kind) (hl : g.sLink = some l) :
    ∃ g' l', destroy g k = some g' ∧ g'.sLink = some l' ∧
      g'.sNumInstances = (g.sNumInstances + (2 ^ 32 - 1)) % 2 ^ 32 ∧
      l' = (if g'.sNumInstances = 0 then l.enable false else l) := by
  have hd : destroy g k = LinkUGen_Dtor g := by cases k <;> rfl
  by_cases h0 : (g.sNumInstances + (2 ^ 32 - 1)) % 2 ^ 32 = 0
  · refine ⟨⟨some (l.enable false), 0⟩, l.enable false, ?_, rfl, h0.symm, by simp⟩
    rw [hd]
    simp only [LinkUGen_Dtor, if_pos h0, hl]
  · refine ⟨{ g with sNumInstances := (g.sNumInstances + (2 ^ 32 - 1)) % 2 ^ 32 }, l, ?_, hl,
      rfl, by simp only [if_neg h0]⟩
    rw [hd]
    simp only [LinkUGen_Dtor, if_neg h0]

/-- The state after the constructions of a list. -/
theorem constructAll_spec : ∀ (cs : List CtorArgs) (g : LinkUGen) (l : Link),
    g.sLink = some l → (∀ a ∈ cs, 0 < a.quantum) →
    ∃ g' l', constructAll g cs = some g' ∧ g'.sLink = some l' ∧
      g'.sNumInstances % 2 ^ 32 = (g.sNumInstances + cs.length) % 2 ^ 32 ∧
      (cs ≠ [] → l'.enabled = true ∧ g'.sNumInstances < 2 ^ 32) ∧
      (cs = [] → g' = g) ∧
      enableCalls true l' =
        enableCalls true l + (if l.enabled = true ∨ cs.length = 0 then 0 else 1) ∧
      enableCalls false l' = enableCalls false l := by
  intro cs
  induction cs with
  | nil =>
    intro g l hl _
    exact ⟨g, l, rfl, hl, by simp, by simp, fun _ => rfl, by simp, rfl⟩
  | cons a as ih =>
    intro g l hl hq
    obtain ⟨g1, l1, hc, hl1, hn1, he1, ht1, hf1⟩ :=
      construct_spec g l a hl (hq a (List.mem_cons_self a as))
    obtain ⟨g', l', hrun, hl', hmod, hen, hnil, ht, hf⟩ :=
      ih g1 l1 hl1 (fun b hb => hq b (List.mem_cons_of_mem a hb))
    refine ⟨g', l', by simp only [constructAll, hc, Option.some_bind, hrun], hl', ?_,
      fun _ => ?_, fun h => absurd h (List.cons_ne_nil a as), ?_, by rw [hf, hf1]⟩
    · rw [hmod, hn1, List.length_cons]
      omega
    · by_cases has : as = []
      · have hg : g' = g1 := hnil has
        rw [hg, hl1] at hl'
        have hll : l' = l1 := (Option.some.inj hl').symm
        rw [hll, hg, hn1]
        exact ⟨he1, Nat.mod_lt _ (by norm_num)⟩
      · exact hen has
    · rw [ht, ht1, he1]
      simp

/-- The state after the destructions of a list, started with `m` live
instances, `m ≤ 2 ^ 32`: `enable(false)` is called once if the list destroys
all `m`, and not at all otherwise. -/
theorem destroyAll_spec : ∀ (ds : List Kind) (g : LinkUGen) (l : Link) (m : ℕ),
    g.sLink = some l → g.sNumInstances = m % 2 ^ 32 → ds.length ≤ m → m ≤ 2 ^ 32 →
    ∃ g' l', destroyAll g ds = some g' ∧ g'.sLink = some l' ∧
      g'.sNumInstances = (m - ds.length) % 2 ^ 32 ∧
      enableCalls true l' = enableCalls true l ∧
      enableCalls false l' =
        enableCalls false l + (if ds ≠ [] ∧ ds.length = m then 1 else 0) := by
  intro ds
  induction ds with
  | nil =>
    intro g l m hl hn _ _
    exact ⟨g, l, rfl, hl, by simpa using hn, rfl, by simp⟩
  | cons k ks ih =>
    intro g l m hl hn hlen hm
    rw [List.length_cons] at hlen
    obtain ⟨g1, l1, hd, hl1, hn1, hl1'⟩ := destroy_spec g l k hl
    have hn1' : g1.sNumInstances = (m - 1) % 2 ^ 32 := by
      rw [hn1, hn]
      omega
    obtain ⟨g', l', hrun, hl', hn', ht, hf⟩ :=
      ih g1 l1 (m - 1) hl1 hn1' (by omega) (by omega)
    refine ⟨g', l', by simp only [destroyAll, hd, Option.some_bind, hrun], hl', ?_, ?_, ?_⟩
    · rw [hn', List.length_cons]
      congr 1
      omega
    · rw [ht, hl1']
      split
      · simp [enableCalls_enable]
      · rfl
    · rw [hf, hl1']
      by_cases h0 : g1.sNumInstances = 0
      · have hm1 : m = 1 := by
          rw [hn1'] at h0
          omega
        have hks : ks = [] := List.eq_nil_of_length_eq_zero (by omega)
        simp [h0, enableCalls_enable, hks, hm1]
      · have hm1 : m - 1 ≠ 0 := by
          intro h
          apply h0
          rw [hn1', h]
          rfl
        rw [if_neg h0]
        by_cases hks : ks = []
        · subst hks
          have : ¬ (0 + 1 = m) := by omega
          simp [this]
        · have : (ks.length = m - 1) ↔ (ks.length + 1 = m) := by omega
          simp [hks, this]

/-- C5, as the code has it.  From the initial state, `n` constructions of units
of either kind (each with a positive quantum), `1 ≤ n ≤ 2 ^ 32`, followed by
the `n` destructions in any order call `enable(true)` exactly once and
`enable(false)` exactly once, and no `enable(false)` has been called as long as
a destruction is still to come. -/
theorem enable_once (cs : List CtorArgs) (ds : List Kind)
    (h1 : 1 ≤ cs.length) (h2 : cs.length ≤ 2 ^ 32) (hq : ∀ a ∈ cs, 0 < a.quantum)
    (hperm : ds.Perm (cs.map CtorArgs.kind)) :
    ∃ g1 g2 l2, constructAll LinkUGen.init cs = some g1 ∧ destroyAll g1 ds = some g2 ∧
      g2.sLink = some l2 ∧ enableCalls true l2 = 1 ∧ enableCalls false l2 = 1 ∧
      ∀ ds' rest, ds = ds' ++ rest → rest ≠ [] →
        ∃ g l, destroyAll g1 ds' = some g ∧ g.sLink = some l ∧ enableCalls false l = 0 := by
  have hlen : ds.length = cs.length := by
    rw [hperm.length_eq, List.length_map]
  have hne : cs ≠ [] := by
    intro h
    rw [h] at h1
    simp at h1
  obtain ⟨g1, l1, hc, hl1, hmod, hen, -, ht, hf⟩ :=
    constructAll_spec cs LinkUGen.init _ rfl hq
  obtain ⟨-, hlt⟩ := hen hne
  have hn1 : g1.sNumInstances = cs.length % 2 ^ 32 := by
    have h0 : LinkUGen.init.sNumInstances = 0 := rfl
    rw [h0] at hmod
    omega
  have ht1 : enableCalls true l1 = 1 := by
    rw [ht]
    have : ¬ cs.length = 0 := by omega
    simp [enableCalls, this]
  have hf1 : enableCalls false l1 = 0 := by
    rw [hf]
    simp [enableCalls]
  obtain ⟨g2, l2, hd, hl2, -, ht2, hf2⟩ :=
    destroyAll_spec ds g1 l1 cs.length hl1 hn1 (by omega) h2
  refine ⟨g1, g2, l2, hc, hd, hl2, by rw [ht2, ht1], ?_, ?_⟩
  · rw [hf2, hf1]
    have : ds ≠ [] := by
      intro h
      rw [h] at hlen
      simp at hlen
      omega
    simp [this, hlen]
  · intro ds' rest hds hrest
    have hlen' : ds'.length < cs.length := by
      have : 0 < rest.length := List.length_pos.mpr hrest
      rw [← hlen, hds, List.length_append]
      omega
    obtain ⟨g, l, hd', hl', -, -, hf'⟩ :=
      destroyAll_spec ds' g1 l1 cs.length hl1 hn1 hlen'.le h2
    refine ⟨g, l, hd', hl', ?_⟩
    rw [hf', hf1]
    have : ¬ ds'.length = cs.length := by omega
    simp [this]

/-- The amended C5 on the case of the specification: three constructions and
the three destructions in another order. -/
theorem enable_once_witness :
    (1 ≤ [trigArgs, phaseArgs, trigArgs].length ∧
      [trigArgs, phaseArgs, trigArgs].length ≤ 2 ^ 32 ∧
      (∀ a ∈ [trigArgs, phaseArgs, trigArgs], 0 < a.quantum) ∧
      [Kind.phase, Kind.trig, Kind.trig].Perm
        ([trigArgs, phaseArgs, trigArgs].map CtorArgs.kind)) ∧
    ∃ g1 g2 l2, constructAll LinkUGen.init [trigArgs, phaseArgs, trigArgs] = some g1 ∧
      destroyAll g1 [Kind.phase, Kind.trig, Kind.trig] = some g2 ∧ g2.sLink = some l2 ∧
      enableCalls true l2 = 1 ∧ enableCalls false l2 = 1 := by
  have h1 : 1 ≤ [trigArgs, phaseArgs, trigArgs].length := by decide
  have h2 : [trigArgs, phaseArgs, trigArgs].length ≤ 2 ^ 32 := by decide
  have h3 : ∀ a ∈ [trigArgs, phaseArgs, trigArgs], 0 < a.quantum := by
    intro a ha
    simp only [List.mem_cons, List.mem_singleton, List.not_mem_nil, or_false] at ha
    rcases ha with h | h | h <;> rw [h] <;> norm_num [trigArgs, phaseArgs]
  have h4 : [Kind.phase, Kind.trig, Kind.trig].Perm
      ([trigArgs, phaseArgs, trigArgs].map CtorArgs.kind) := by
    simp only [List.map, trigArgs, phaseArgs]
    decide
  refine ⟨⟨h1, h2, h3, h4⟩, ?_⟩
  obtain ⟨g1, g2, l2, hc, hd, hl2, ht, hf, -⟩ :=
    enable_once [trigArgs, phaseArgs, trigArgs] [Kind.phase, Kind.trig, Kind.trig] h1 h2 h3 h4
  exact ⟨g1, g2, l2, hc, hd, hl2, ht, hf⟩

/-- C5 as stated fails on the code for `n = 2 ^ 32 + 1`: after that many
constructions the `uint32` counter holds `1`, so the first destruction, with
`2 ^ 32` destructions still to come, calls `enable(false)`. -/
theorem enable_once_counterexample :
    (List.replicate (2 ^ 32 + 1) Kind.trig
        = [Kind.trig] ++ List.replicate (2 ^ 32) Kind.trig ∧
      (List.replicate (2 ^ 32) Kind.trig).length = 2 ^ 32) ∧
    ∃ g1 g l, constructAll LinkUGen.init (List.replicate (2 ^ 32 + 1) trigArgs) = some g1 ∧
      destroyAll g1 [Kind.trig] = some g ∧ g.sLink = some l ∧ enableCalls false l = 1 := by
  refine ⟨⟨List.replicate_succ .., List.length_replicate ..⟩, ?_⟩
  have hq : ∀ a ∈ List.replicate (2 ^ 32 + 1) trigArgs, 0 < a.quantum := by
    intro a ha
    rw [List.eq_of_mem_replicate ha]
    norm_num [trigArgs]
  have hne : List.replicate (2 ^ 32 + 1) trigArgs ≠ [] := by
    rw [List.replicate_succ]
    exact List.cons_ne_nil _ _
  obtain ⟨g1, l1, hc, hl1, hmod, hen, -, -, hf⟩ :=
    constructAll_spec (List.replicate (2 ^ 32 + 1) trigArgs) LinkUGen.init _ rfl hq
  obtain ⟨-, hlt⟩ := hen hne
  have hn1 : g1.sNumInstances = 1 := by
    have h0 : LinkUGen.init.sNumInstances = 0 := rfl
    rw [h0, List.length_replicate] at hmod
    omega
  obtain ⟨g, l, hd, hl, hn, hl'⟩ := destroy_spec g1 l1 Kind.trig hl1
  have h0 : g.sNumInstances = 0 := by
    rw [hn, hn1]
    rfl
  refine ⟨g1, g, l, hc, by simp only [destroyAll, hd, Option.some_bind], hl, ?_⟩
  rw [hl', if_pos h0, enableCalls_enable, hf]
  simp [enableCalls]

/-! ## C10: the time stamps at which `LinkPhase_next` reads the phase -/

/-- `LinkPhase_next` with the session present, at least one sample and a
quantum other than zero. -/
theorem LinkPhase_next_some (g : LinkUGen) (l : Link) (unit : LinkPhase) (host : Host)
    (tl : Timeline) (quantum : ℚ) (n : ℕ) (hl : g.sLink = some l) (hn : 1 ≤ n)
    (hq : quantum ≠ 0) :
    LinkPhase_next g unit host tl quantum n =
      some ({ g with sLink := some (l.record LinkCall.captureAudioTimeline) },
            { mTime := timeAtBufferEnd host n },
            (List.range n).map fun i =>
              toFloat (tl.phaseAtTime (sampleTime unit.mTime (timeAtBufferEnd host n) n i)
                quantum / quantum)) := by
  have hn0 : ¬ (n = 0 ∨ quantum = 0) := by
    rintro (h | h)
    · omega
    · exact hq h
  simp only [LinkPhase_next, hl, if_neg hn0]

theorem timeAtBufferEnd_host44k_64 : timeAtBufferEnd host44k 64 = 1451 := by
  norm_num [timeAtBufferEnd, timeAtBufferBegin, bufferTimeOffset, bufferDuration, host44k, lround]

/-- C10, as the code has it.  With the session present, `quantum > 0`,
`numSamples ≥ 1` and `timeAtBufferEnd > lastHostTime` (`mTime`),
`LinkPhase_next` returns, sample `i` is the `float` of the phase at the time
stamp `mTime + i * timePerSample` over the quantum, `timePerSample` is the
integer quotient of `timeAtBufferEnd - mTime` by `numSamples`, and the step from
the last time stamp of this buffer to the first time stamp of the next buffer
(this buffer's `timeAtBufferEnd`, stored in `mTime`) is `timePerSample` plus
the remainder of that division: it equals `timePerSample` exactly when
`numSamples` divides `timeAtBufferEnd - mTime`. -/
theorem LinkPhase_next_seam (g : LinkUGen) (l : Link) (unit : LinkPhase) (host : Host)
    (tl : Timeline) (quantum : ℚ) (n : ℕ) (hl : g.sLink = some l) (hq : 0 < quantum)
    (hn : 1 ≤ n) (hgt : unit.mTime < timeAtBufferEnd host n) :
    ∃ g1 unit1 out1, LinkPhase_next g unit host tl quantum n = some (g1, unit1, out1) ∧
      (∀ i, i < n → out1[i]? = some (toFloat
        (tl.phaseAtTime (sampleTime unit.mTime (timeAtBufferEnd host n) n i) quantum
          / quantum))) ∧
      unit1.mTime = timeAtBufferEnd host n ∧
      timePerSample unit.mTime (timeAtBufferEnd host n) n
        = (timeAtBufferEnd host n - unit.mTime) / (n : ℤ) ∧
      (∀ (timeAtEnd2 : Micros) (n2 : ℕ),
        sampleTime unit1.mTime timeAtEnd2 n2 0
            - sampleTime unit.mTime (timeAtBufferEnd host n) n (n - 1)
          = timePerSample unit.mTime (timeAtBufferEnd host n) n
            + (timeAtBufferEnd host n - unit.mTime) % (n : ℤ)) ∧
      (∀ (timeAtEnd2 : Micros) (n2 : ℕ),
        sampleTime unit1.mTime timeAtEnd2 n2 0
            - sampleTime unit.mTime (timeAtBufferEnd host n) n (n - 1)
          = timePerSample unit.mTime (timeAtBufferEnd host n) n
        ↔ (n : ℤ) ∣ timeAtBufferEnd host n - unit.mTime) := by
  have htps : timePerSample unit.mTime (timeAtBufferEnd host n) n
      = (timeAtBufferEnd host n - unit.mTime) / (n : ℤ) := by
    unfold timePerSample
    exact Int.tdiv_eq_ediv (Int.sub_nonneg_of_le (le_of_lt hgt)) (Int.ofNat_nonneg n)
  have hcast : ((n - 1 : ℕ) : ℤ) = (n : ℤ) - 1 := by omega
  have hstep : ∀ (timeAtEnd2 : Micros) (n2 : ℕ),
      sampleTime (timeAtBufferEnd host n) timeAtEnd2 n2 0
          - sampleTime unit.mTime (timeAtBufferEnd host n) n (n - 1)
        = timePerSample unit.mTime (timeAtBufferEnd host n) n
          + (timeAtBufferEnd host n - unit.mTime) % (n : ℤ) := by
    intro timeAtEnd2 n2
    simp only [sampleTime, hcast, htps, Int.emod_def]
    push_cast
    ring
  refine ⟨_, _, _, LinkPhase_next_some g l unit host tl quantum n hl hn hq.ne', fun i hi => ?_,
    rfl, htps, hstep, fun timeAtEnd2 n2 => ?_⟩
  · simp [hi]
  · rw [hstep timeAtEnd2 n2]
    constructor
    · intro h
      exact Int.dvd_of_emod_eq_zero (add_right_eq_self.mp h)
    · intro h
      rw [Int.emod_eq_zero_of_dvd h, add_zero]

/-- The amended C10 on a buffer of 64 samples at 44100 Hz started at time 0. -/
theorem LinkPhase_next_seam_witness :
    (LinkUGen.init.sLink = some { enabled := false, calls := [] } ∧ (0 : ℚ) < 4 ∧ 1 ≤ 64 ∧
      (⟨0⟩ : LinkPhase).mTime < timeAtBufferEnd host44k 64) ∧
    ∃ g1 unit1 out1, LinkPhase_next LinkUGen.init ⟨0⟩ host44k (constTimeline 0 0) 4 64
        = some (g1, unit1, out1) ∧
      unit1.mTime = 1451 ∧
      sampleTime unit1.mTime 2902 64 0 - sampleTime 0 (timeAtBufferEnd host44k 64) 64 (64 - 1)
        = 22 + 43 := by
  have h4 : (⟨0⟩ : LinkPhase).mTime < timeAtBufferEnd host44k 64 := by
    rw [timeAtBufferEnd_host44k_64]; decide
  refine ⟨⟨rfl, by norm_num, by norm_num, h4⟩, ?_⟩
  obtain ⟨g1, unit1, out1, hrun, -, hm, htps, hstep, -⟩ :=
    LinkPhase_next_seam LinkUGen.init _ ⟨0⟩ host44k (constTimeline 0 0) 4 64 rfl (by norm_num)
      (by norm_num) h4
  refine ⟨g1, unit1, out1, hrun, by rw [hm, timeAtBufferEnd_host44k_64], ?_⟩
  have := hstep 2902 64
  rw [htps, timeAtBufferEnd_host44k_64] at this
  rw [timeAtBufferEnd_host44k_64]
  rw [this]
  decide

/-- C10 as stated fails on the code.  A buffer of 64 samples at 44100 Hz
started at time 0 ends at 1451 microseconds; `timePerSample` is the integer
`22`, the last time stamp read is `63 * 22 = 1386`, and the next buffer starts
reading at `1451`: a step of `65`, not `22` (and not `1451 / 64`). -/
theorem LinkPhase_next_seam_counterexample :
    (0 : ℤ) < timeAtBufferEnd host44k 64 ∧
    timePerSample 0 (timeAtBufferEnd host44k 64) 64 = 22 ∧
    sampleTime 0 (timeAtBufferEnd host44k 64) 64 63 = 1386 ∧
    (LinkPhase_next LinkUGen.init ⟨0⟩ host44k (constTimeline 0 0) 4 64).map
      (fun res => sampleTime res.2.1.mTime 2902 64 0) = some 1451 ∧
    (1451 : ℤ) - 1386 ≠ 22 ∧ ((1451 : ℚ) - 1386 ≠ 1451 / 64) := by
  refine ⟨?_, ?_, ?_, ?_, by decide, by norm_num⟩
  · rw [timeAtBufferEnd_host44k_64]; decide
  · rw [timeAtBufferEnd_host44k_64]; decide
  · rw [timeAtBufferEnd_host44k_64]; decide
  · rw [LinkPhase_next_some LinkUGen.init _ ⟨0⟩ host44k (constTimeline 0 0) 4 64 rfl
      (by norm_num) (by norm_num)]
    simp only [Option.map_some', sampleTime, timeAtBufferEnd_host44k_64]
    decide

/-! ## C9: the range of the samples of `LinkPhase_next` -/

theorem roundHalfEven_bounds (x : ℚ) : ⌊x⌋ ≤ roundHalfEven x ∧ roundHalfEven x ≤ ⌊x⌋ + 1 := by
  unfold roundHalfEven
  split
  · exact ⟨le_refl _, by omega⟩
  · split
    · exact ⟨by omega, le_refl _⟩
    · split
      · exact ⟨le_refl _, by omega⟩
      · exact ⟨by omega, le_refl _⟩

/-- The conversion to `float` keeps a value of `[0, 1]` in `[0, 1]`. -/
theorem toFloat_unit_interval {x : ℚ} (h0 : 0 ≤ x) (h1 : x < 1) :
    0 ≤ toFloat x ∧ toFloat x ≤ 1 := by
  unfold toFloat
  by_cases hx : x = 0
  · simp [hx]
  · rw [if_neg hx]
    have hpos : 0 < x := lt_of_le_of_ne h0 (Ne.symm hx)
    have habs : |x| = x := abs_of_pos hpos
    rw [habs]
    have hlog : Int.log 2 x < 0 := by
      rw [← Int.lt_zpow_iff_log_lt (by norm_num) hpos]
      simpa using h1
    obtain ⟨k, hk⟩ : ∃ k : ℕ, max (Int.log 2 x) (-126) - 23 = -(k : ℤ) := by
      refine ⟨(23 - max (Int.log 2 x) (-126)).toNat, ?_⟩
      have : max (Int.log 2 x) (-126) < 0 := max_lt hlog (by norm_num)
      omega
    rw [hk, zpow_neg, zpow_natCast]
    have hs : (0 : ℚ) < (2 : ℚ) ^ k := by positivity
    have hy0 : 0 ≤ x / ((2 : ℚ) ^ k)⁻¹ := by positivity
    have hyN : x / ((2 : ℚ) ^ k)⁻¹ < (((2 : ℤ) ^ k : ℤ) : ℚ) := by
      rw [div_inv_eq_mul]
      push_cast
      nlinarith
    obtain ⟨hlo, hhi⟩ := roundHalfEven_bounds (x / ((2 : ℚ) ^ k)⁻¹)
    have hfl0 : (0 : ℤ) ≤ ⌊x / ((2 : ℚ) ^ k)⁻¹⌋ := Int.floor_nonneg.mpr hy0
    have hflN : ⌊x / ((2 : ℚ) ^ k)⁻¹⌋ < (2 : ℤ) ^ k := Int.floor_lt.mpr hyN
    have hr0 : (0 : ℚ) ≤ (roundHalfEven (x / ((2 : ℚ) ^ k)⁻¹) : ℚ) := by
      exact_mod_cast hfl0.trans hlo
    have hrN : (roundHalfEven (x / ((2 : ℚ) ^ k)⁻¹) : ℚ) ≤ (2 : ℚ) ^ k := by
      have : roundHalfEven (x / ((2 : ℚ) ^ k)⁻¹) ≤ (2 : ℤ) ^ k := by omega
      exact_mod_cast this
    constructor
    · positivity
    · rw [← div_eq_mul_inv, div_le_one hs]
      exact hrN

theorem toFloat_below_one : toFloat (67108863 / 67108864) = 1 := by
  have hlog : Int.log 2 (67108863 / 67108864 : ℚ) = -1 := by
    apply le_antisymm
    · have h : Int.log 2 (67108863 / 67108864 : ℚ) < 0 := by
        rw [← Int.lt_zpow_iff_log_lt (by norm_num) (by norm_num)]
        norm_num
      omega
    · rw [← Int.zpow_le_iff_le_log (by norm_num) (by norm_num)]
      norm_num
  have habs : |(67108863 / 67108864 : ℚ)| = 67108863 / 67108864 := abs_of_pos (by norm_num)
  have hfl : ⌊(67108863 / 4 : ℚ)⌋ = 16777215 := by
    rw [Int.floor_eq_iff]
    norm_num
  unfold toFloat
  rw [if_neg (by norm_num), habs, hlog]
  norm_num [roundHalfEven, hfl]

/-- C9, as the code has it.  For `quantum > 0`, `numSamples ≥ 1` and a timeline
whose `phaseAtTime(t, quantum)` lies in `[0, quantum)` for every `t`,
`LinkPhase_next` returns `numSamples` samples, each the `float` of a quotient
that lies in `[0, 1)`, and each sample lies in `[0, 1]`. -/
theorem LinkPhase_next_range (g : LinkUGen) (unit : LinkPhase) (host : Host) (tl : Timeline)
    (quantum : ℚ) (n : ℕ) (hq : 0 < quantum) (hn : 1 ≤ n)
    (hphase : ∀ t, 0 ≤ tl.phaseAtTime t quantum ∧ tl.phaseAtTime t quantum < quantum) :
    ∃ g' unit' out, LinkPhase_next g unit host tl quantum n = some (g', unit', out) ∧
      out.length = n ∧
      (∀ x ∈ out, ∃ v : ℚ, x = toFloat v ∧ 0 ≤ v ∧ v < 1) ∧
      ∀ x ∈ out, 0 ≤ x ∧ x ≤ 1 := by
  have hv : ∀ t, 0 ≤ tl.phaseAtTime t quantum / quantum ∧
      tl.phaseAtTime t quantum / quantum < 1 := by
    intro t
    obtain ⟨h0, h1⟩ := hphase t
    exact ⟨div_nonneg h0 hq.le, (div_lt_one hq).mpr h1⟩
  have hzero : toFloat 0 = 0 := by simp [toFloat]
  cases hl : g.sLink with
  | none =>
    refine ⟨g, unit, List.replicate n 0, by simp only [LinkPhase_next, hl], by simp, ?_, ?_⟩
    · intro x hx
      rw [List.eq_of_mem_replicate hx]
      exact ⟨0, hzero.symm, le_refl 0, by norm_num⟩
    · intro x hx
      rw [List.eq_of_mem_replicate hx]
      norm_num
  | some l =>
    refine ⟨_, _, _, LinkPhase_next_some g l unit host tl quantum n hl hn hq.ne', by simp,
      ?_, ?_⟩
    · intro x hx
      obtain ⟨i, -, rfl⟩ := List.mem_map.mp hx
      exact ⟨_, rfl, hv _⟩
    · intro x hx
      obtain ⟨i, -, rfl⟩ := List.mem_map.mp hx
      exact toFloat_unit_interval (hv _).1 (hv _).2

/-- The amended C9 on a timeline with constant phase `1` and `quantum = 4`. -/
theorem LinkPhase_next_range_witness :
    ((0 : ℚ) < 4 ∧ 1 ≤ 2 ∧
      ∀ t, 0 ≤ (constTimeline 0 1).phaseAtTime t 4 ∧ (constTimeline 0 1).phaseAtTime t 4 < 4) ∧
    ∃ g' unit' out, LinkPhase_next LinkUGen.init ⟨0⟩ host44k (constTimeline 0 1) 4 2
        = some (g', unit', out) ∧ out.length = 2 ∧ ∀ x ∈ out, 0 ≤ x ∧ x ≤ 1 := by
  have h3 : ∀ t, 0 ≤ (constTimeline 0 1).phaseAtTime t 4 ∧
      (constTimeline 0 1).phaseAtTime t 4 < 4 := by
    intro t
    norm_num [constTimeline]
  refine ⟨⟨by norm_num, by norm_num, h3⟩, ?_⟩
  obtain ⟨g', unit', out, hrun, hlen, -, hr⟩ :=
    LinkPhase_next_range LinkUGen.init ⟨0⟩ host44k (constTimeline 0 1) 4 2 (by norm_num)
      (by norm_num) h3
  exact ⟨g', unit', out, hrun, hlen, hr⟩

/-- C9 as stated fails on the code.  With `quantum = 64` and a timeline whose
phase is `64 - 2 ^ (-20)` (in `[0, 64)`), the quotient is `1 - 2 ^ (-26)`, which
lies above the midpoint between the greatest `float` below `1` and `1`: the
sample stored is `1`, outside `[0, 1)`. -/
theorem LinkPhase_next_range_counterexample :
    (∀ t, 0 ≤ (constTimeline 0 (67108863 / 1048576)).phaseAtTime t 64 ∧
      (constTimeline 0 (67108863 / 1048576)).phaseAtTime t 64 < 64) ∧
    (LinkPhase_next LinkUGen.init ⟨0⟩ host44k (constTimeline 0 (67108863 / 1048576)) 64 1).map
      (fun res => res.2.2) = some [1] := by
  constructor
  · intro t
    norm_num [constTimeline]
  · rw [LinkPhase_next_some LinkUGen.init _ ⟨0⟩ host44k _ 64 1 rfl (by norm_num) (by norm_num)]
    have h : (67108863 / 1048576 : ℚ) / 64 = 67108863 / 67108864 := by norm_num
    simp only [Option.map_some', constTimeline, h, toFloat_below_one]
    rfl

/-! ## C18, C19 and C13: before beat zero, the state, the absent session -/

theorem clickIterations_of_end_nonpos {b e p : ℚ} (he : e ≤ 0) : clickIterations b e p = 0 := by
  unfold clickIterations
  cases fmod b p with
  | none => rfl
  | some r =>
    have : ¬ (b - r < e ∧ 0 < e) := fun h => absurd h.2 (not_lt.mpr he)
    simp only [if_neg this]

/-- C18.  For `beatsPerClick > 0` and `numSamples ≥ 1`, whatever the state and
the fuel, if `beatsAtBufferEnd ≤ 0` then `LinkTrig_next` returns and emits no
trigger: every output sample is `0`. -/
theorem LinkTrig_next_before_beat_zero (fuel : ℕ) (g : LinkUGen) (unit : LinkTrig) (host : Host)
    (tl : Timeline) (quantum beatsPerClick : ℚ) (n : ℕ)
    (hp : 0 < beatsPerClick) (_hn : 1 ≤ n)
    (he : beatsAtBufferEnd unit host tl quantum n ≤ 0) :
    ∃ g' unit', LinkTrig_next fuel g unit host tl quantum beatsPerClick n =
      some (g', unit', List.replicate n 0) := by
  obtain ⟨g', unit', hrun, -, -⟩ :=
    LinkTrig_next_silent fuel g unit host tl quantum beatsPerClick n hp
      (by rw [clickIterations_of_end_nonpos he]; exact Nat.zero_le _)
      (fun c i _ _ hpos => absurd hpos (not_lt.mpr he))
  exact ⟨g', unit', hrun⟩

/-- C18 on a late joiner whose buffer maps to beats `[-3/2, -1/2)`. -/
theorem LinkTrig_next_before_beat_zero_witness :
    ((0 : ℚ) < 1 ∧ 1 ≤ 4 ∧
      beatsAtBufferEnd ⟨-3 / 2, 0⟩ host44k (constTimeline (-1 / 2) 0) 4 4 ≤ 0) ∧
    ∃ g' unit', LinkTrig_next 0 LinkUGen.init ⟨-3 / 2, 0⟩ host44k
        (constTimeline (-1 / 2) 0) 4 1 4 = some (g', unit', [0, 0, 0, 0]) := by
  have h : beatsAtBufferEnd ⟨-3 / 2, 0⟩ host44k (constTimeline (-1 / 2) 0) 4 4 ≤ 0 := by
    norm_num [beatsAtBufferEnd, constTimeline]
  exact ⟨⟨by norm_num, by norm_num, h⟩,
    LinkTrig_next_before_beat_zero 0 LinkUGen.init ⟨-3 / 2, 0⟩ host44k
      (constTimeline (-1 / 2) 0) 4 1 4 (by norm_num) (by norm_num) h⟩

/-- Whatever `LinkTrig_next` returns with the session present, the unit it
returns has `mBeats = beatsAtBufferEnd` and the `mBeatTimeOffset` it had. -/
theorem LinkTrig_next_unit (fuel : ℕ) (g : LinkUGen) (l : Link) (unit : LinkTrig) (host : Host)
    (tl : Timeline) (quantum beatsPerClick : ℚ) (n : ℕ) (hl : g.sLink = some l)
    (g' : LinkUGen) (unit' : LinkTrig) (out : List ℚ)
    (hrun : LinkTrig_next fuel g unit host tl quantum beatsPerClick n = some (g', unit', out)) :
    g' = { g with sLink := some (l.record LinkCall.captureAudioTimeline) } ∧
    unit' = { unit with mBeats := beatsAtBufferEnd unit host tl quantum n } := by
  unfold LinkTrig_next at hrun
  rw [hl] at hrun
  cases hr : fmod unit.mBeats beatsPerClick with
  | none =>
    rw [hr] at hrun
    simp only [Option.some.injEq, Prod.mk.injEq] at hrun
    exact ⟨hrun.1.symm, hrun.2.1.symm⟩
  | some r =>
    rw [hr] at hrun
    simp only [Option.map_eq_some', Prod.mk.injEq] at hrun
    obtain ⟨o, -, h1, h2, -⟩ := hrun
    exact ⟨h1.symm, h2.symm⟩

/-- With the session present and `beatsPerClick ≥ 0`, `LinkTrig_next` returns
when the fuel covers the iterations of the loop. -/
theorem LinkTrig_next_returns (fuel : ℕ) (g : LinkUGen) (l : Link) (unit : LinkTrig)
    (host : Host) (tl : Timeline) (quantum beatsPerClick : ℚ) (n : ℕ) (hl : g.sLink = some l)
    (hp : 0 ≤ beatsPerClick)
    (hfuel : clickIterations unit.mBeats (beatsAtBufferEnd unit host tl quantum n) beatsPerClick
      ≤ fuel) :
    ∃ out, LinkTrig_next fuel g unit host tl quantum beatsPerClick n =
      some ({ g with sLink := some (l.record LinkCall.captureAudioTimeline) },
            { unit with mBeats := beatsAtBufferEnd unit host tl quantum n }, out) := by
  rcases hp.lt_or_eq with hpos | hzero
  · obtain ⟨out, hrun, -⟩ :=
      LinkTrig_next_spec fuel g l unit host tl quantum beatsPerClick _ n hl hpos
        (fmod_pos hpos) hfuel
    exact ⟨out, hrun⟩
  · have hr : fmod unit.mBeats beatsPerClick = none := by simp [fmod, ← hzero]
    exact ⟨List.replicate n 0, by simp only [LinkTrig_next, hl, hr]⟩

/-- C19.  With the session present, whatever `LinkTrig_next` returns leaves
`mBeatTimeOffset` as it was and has `mBeats` set to
`beatAtTime(timeAtBufferEnd, quantum) - mBeatTimeOffset`, whether or not a
trigger was placed, so that the next call, which reads `mBeats` as its
`beatsAtBufferBegin`, begins at this call's `beatsAtBufferEnd`; and for
`beatsPerClick ≥ 0` the call does return (given fuel for its loop). -/
theorem LinkTrig_next_state (fuel : ℕ) (g : LinkUGen) (l : Link) (unit : LinkTrig)
    (host : Host) (tl : Timeline) (quantum beatsPerClick : ℚ) (n : ℕ)
    (hl : g.sLink = some l) :
    (∀ g' unit' out,
      LinkTrig_next fuel g unit host tl quantum beatsPerClick n = some (g', unit', out) →
        unit'.mBeatTimeOffset = unit.mBeatTimeOffset ∧
        unit'.mBeats = tl.beatAtTime (timeAtBufferEnd host n) quantum - unit.mBeatTimeOffset ∧
        unit'.mBeats = beatsAtBufferEnd unit host tl quantum n) ∧
    (0 ≤ beatsPerClick →
      clickIterations unit.mBeats (beatsAtBufferEnd unit host tl quantum n) beatsPerClick
        ≤ fuel →
      (LinkTrig_next fuel g unit host tl quantum beatsPerClick n).isSome = true) := by
  constructor
  · intro g' unit' out hrun
    obtain ⟨-, hu⟩ := LinkTrig_next_unit fuel g l unit host tl quantum beatsPerClick n hl
      g' unit' out hrun
    rw [hu]
    exact ⟨rfl, rfl, rfl⟩
  · intro hp hfuel
    obtain ⟨out, hrun⟩ :=
      LinkTrig_next_returns fuel g l unit host tl quantum beatsPerClick n hl hp hfuel
    rw [hrun]
    rfl

/-- C19 on a buffer that maps to beats `[1/2, 3/2)` of a unit with offset `4`. -/
theorem LinkTrig_next_state_witness :
    LinkUGen.init.sLink = some { enabled := false, calls := [] } ∧
    ∃ g' unit' out, LinkTrig_next 2 LinkUGen.init ⟨1 / 2, 4⟩ host44k
        (constTimeline (11 / 2) 0) 4 1 4 = some (g', unit', out) ∧
      unit'.mBeatTimeOffset = 4 ∧ unit'.mBeats = 3 / 2 := by
  refine ⟨rfl, ?_⟩
  obtain ⟨hstate, hret⟩ :=
    LinkTrig_next_state 2 LinkUGen.init _ ⟨1 / 2, 4⟩ host44k (constTimeline (11 / 2) 0) 4 1 4 rfl
  have hsome := hret (by norm_num) (by
    norm_num [clickIterations, fmod, truncQ, beatsAtBufferEnd, constTimeline, Int.ceil_le])
  obtain ⟨⟨g', unit', out⟩, hrun⟩ := Option.isSome_iff_exists.mp hsome
  obtain ⟨h1, h2, -⟩ := hstate g' unit' out hrun
  refine ⟨g', unit', out, hrun, h1, ?_⟩
  rw [h2]
  norm_num [constTimeline]

/-- C13, as the code has it.  If the session is absent (`sLink == nullptr`),
`LinkTrig_next` writes `numSamples` zeros and leaves the static state and the
unit (`mBeats`, `mBeatTimeOffset`) as they were: no snapshot is captured and no
trigger is emitted.  If the session is present, enabled or not, the call (for
`beatsPerClick ≥ 0`, given fuel for its loop) captures one snapshot and stores
`beatsAtBufferEnd` in `mBeats`. -/
theorem LinkTrig_next_session (fuel : ℕ) (g : LinkUGen) (unit : LinkTrig) (host : Host)
    (tl : Timeline) (quantum beatsPerClick : ℚ) (n : ℕ) :
    (g.sLink = none →
      LinkTrig_next fuel g unit host tl quantum beatsPerClick n =
        some (g, unit, List.replicate n 0)) ∧
    (∀ l, g.sLink = some l → 0 ≤ beatsPerClick →
      clickIterations unit.mBeats (beatsAtBufferEnd unit host tl quantum n) beatsPerClick
        ≤ fuel →
      ∃ out, LinkTrig_next fuel g unit host tl quantum beatsPerClick n =
        some ({ g with sLink := some (l.record LinkCall.captureAudioTimeline) },
              { unit with mBeats := beatsAtBufferEnd unit host tl quantum n }, out)) :=
  ⟨LinkTrig_next_null fuel g unit host tl quantum beatsPerClick n,
    fun l hl hp hfuel =>
      LinkTrig_next_returns fuel g l unit host tl quantum beatsPerClick n hl hp hfuel⟩

/-- The amended C13 on a static state with no session. -/
theorem LinkTrig_next_session_witness :
    (⟨none, 1⟩ : LinkUGen).sLink = none ∧
    LinkTrig_next 0 ⟨none, 1⟩ ⟨1 / 2, 4⟩ host44k (constTimeline (11 / 2) 0) 4 1 4 =
      some (⟨none, 1⟩, ⟨1 / 2, 4⟩, [0, 0, 0, 0]) :=
  ⟨rfl, (LinkTrig_next_session 0 ⟨none, 1⟩ ⟨1 / 2, 4⟩ host44k (constTimeline (11 / 2) 0)
    4 1 4).1 rfl⟩

/-- C13 as stated fails on the code for a session that is present but not
enabled: `LinkTrig_next` tests `sLink != nullptr` only, so it captures the
timeline, stores `beatsAtBufferEnd = 2` in `mBeats` and, the buffer mapping to
beats `[0, 2)`, writes triggers at samples `0` and `2`. -/
theorem LinkTrig_next_session_counterexample :
    LinkTrig_next 2 ⟨some ⟨false, []⟩, 1⟩ ⟨0, 0⟩ host44k (constTimeline 2 0) 4 1 4 =
      some (⟨some ⟨false, [LinkCall.captureAudioTimeline]⟩, 1⟩, ⟨2, 0⟩, [1, 0, 1, 0]) := by
  norm_num [LinkTrig_next, fmod, truncQ, clickLoop, beatsAtBufferEnd, constTimeline,
    samplesPerBeat, clickOffset, writeClick, lround, Link.record]
  rfl

/-! ## C14: the number of iterations of the click loop -/

/-- The click loop runs out of fuel when the click reached after `fuel`
iterations is still below `e`, with `e > 0`. -/
theorem clickLoop_none (n : ℕ) (b e p : ℚ) (spb : Option ℚ) (hp : 0 < p) :
    ∀ (fuel : ℕ) (c : ℚ) (out : List ℚ), c + (fuel : ℚ) * p < e → 0 < e →
      clickLoop n b e p spb fuel c out = none := by
  intro fuel
  induction fuel with
  | zero =>
    intro c out hc he
    have : c < e ∧ e > 0 := ⟨by simpa using hc, he⟩
    simp only [clickLoop, if_pos this]
  | succ fuel ih =>
    intro c out hc he
    have h0 : (0 : ℚ) ≤ ((fuel + 1 : ℕ) : ℚ) * p := by positivity
    have hce : c < e ∧ e > 0 := ⟨by linarith, he⟩
    simp only [clickLoop, if_pos hce]
    apply ih
    · push_cast at hc
      linarith
    · exact he

/-- C14.  For `beatsPerClick > 0` and `numSamples ≥ 1`, with the session present
and whatever `mBeats` and `beatsAtBufferEnd` are, the placement loop of
`LinkTrig_next` terminates, and the number of times its body runs is `0` when
`start ≥ beatsAtBufferEnd` or `beatsAtBufferEnd ≤ 0` and
`ceil((beatsAtBufferEnd - start) / beatsPerClick)` otherwise, where
`start = mBeats - fmod(mBeats, beatsPerClick)`: the call returns with that
much fuel and with no less. -/
theorem LinkTrig_next_iterations (fuel : ℕ) (g : LinkUGen) (l : Link) (unit : LinkTrig)
    (host : Host) (tl : Timeline) (quantum beatsPerClick r : ℚ) (n : ℕ)
    (hl : g.sLink = some l) (hp : 0 < beatsPerClick) (_hn : 1 ≤ n)
    (hr : fmod unit.mBeats beatsPerClick = some r) :
    (LinkTrig_next fuel g unit host tl quantum beatsPerClick n).isSome = true ↔
      (if unit.mBeats - r < beatsAtBufferEnd unit host tl quantum n ∧
          0 < beatsAtBufferEnd unit host tl quantum n then
        ⌈(beatsAtBufferEnd unit host tl quantum n - (unit.mBeats - r)) / beatsPerClick⌉.toNat
       else 0) ≤ fuel := by
  have hN : clickIterations unit.mBeats (beatsAtBufferEnd unit host tl quantum n) beatsPerClick
      = (if unit.mBeats - r < beatsAtBufferEnd unit host tl quantum n ∧
          0 < beatsAtBufferEnd unit host tl quantum n then
        ⌈(beatsAtBufferEnd unit host tl quantum n - (unit.mBeats - r)) / beatsPerClick⌉.toNat
       else 0) := by
    simp only [clickIterations, hr]
  rw [← hN]
  constructor
  · intro hsome
    by_contra hlt
    push_neg at hlt
    rw [hN] at hlt
    by_cases hc : unit.mBeats - r < beatsAtBufferEnd unit host tl quantum n ∧
        0 < beatsAtBufferEnd unit host tl quantum n
    · rw [if_pos hc, Int.lt_toNat, Int.lt_ceil, lt_div_iff₀ hp] at hlt
      push_cast at hlt
      have hnone := clickLoop_none n unit.mBeats (beatsAtBufferEnd unit host tl quantum n)
        beatsPerClick
        (samplesPerBeat n (beatsAtBufferEnd unit host tl quantum n - unit.mBeats)) hp fuel
        (unit.mBeats - r) (List.replicate n 0) (by linarith) hc.2
      simp [LinkTrig_next, hl, hr, hnone] at hsome
    · rw [if_neg hc] at hlt
      exact absurd hlt (Nat.not_lt_zero _)
  · intro hfuel
    obtain ⟨out, hrun, -⟩ :=
      LinkTrig_next_spec fuel g l unit host tl quantum beatsPerClick r n hl hp hr hfuel
    rw [hrun]
    rfl

/-- C14 on a buffer that maps to beats `[1/2, 5/2)` with one click per beat:
the clicks `0`, `1` and `2` are visited; fuel `3` is enough. -/
theorem LinkTrig_next_iterations_witness :
    (LinkUGen.init.sLink = some { enabled := false, calls := [] } ∧ (0 : ℚ) < 1 ∧ 1 ≤ 4 ∧
      fmod (1 / 2) 1 = some (1 / 2)) ∧
    (LinkTrig_next 3 LinkUGen.init ⟨1 / 2, 0⟩ host44k (constTimeline (5 / 2) 0) 4 1 4).isSome
      = true ∧
    (LinkTrig_next 2 LinkUGen.init ⟨1 / 2, 0⟩ host44k (constTimeline (5 / 2) 0) 4 1 4).isSome
      ≠ true := by
  have hr : fmod (1 / 2) 1 = some (1 / 2) := by norm_num [fmod, truncQ]
  have hc : ⌈(5 / 2 : ℚ)⌉ = 3 := by rw [Int.ceil_eq_iff]; norm_num
  have hN : (if (1 / 2 : ℚ) - 1 / 2
        < beatsAtBufferEnd ⟨1 / 2, 0⟩ host44k (constTimeline (5 / 2) 0) 4 4 ∧
        0 < beatsAtBufferEnd ⟨1 / 2, 0⟩ host44k (constTimeline (5 / 2) 0) 4 4 then
      ⌈(beatsAtBufferEnd ⟨1 / 2, 0⟩ host44k (constTimeline (5 / 2) 0) 4 4
        - ((1 / 2 : ℚ) - 1 / 2)) / 1⌉.toNat
      else 0) = 3 := by
    norm_num [beatsAtBufferEnd, constTimeline, hc]
    rfl
  refine ⟨⟨rfl, by norm_num, by norm_num, hr⟩, ?_, ?_⟩
  · rw [LinkTrig_next_iterations 3 LinkUGen.init _ ⟨1 / 2, 0⟩ host44k (constTimeline (5 / 2) 0)
      4 1 (1 / 2) 4 rfl (by norm_num) (by norm_num) hr, hN]
  · intro h
    rw [LinkTrig_next_iterations 2 LinkUGen.init _ ⟨1 / 2, 0⟩ host44k (constTimeline (5 / 2) 0)
      4 1 (1 / 2) 4 rfl (by norm_num) (by norm_num) hr, hN] at h
    norm_num at h

/-! ## C16, C15 and C17: the grid points computed with `fmod`, and `mBeats` -/

/-- C16, as the code has it.  For `beatsPerClick > 0` and the session present,
the placement loop of `LinkTrig_next` starts at
`start = mBeats - fmod(mBeats, beatsPerClick)`, which is an integer multiple of
`beatsPerClick`: for `mBeats ≥ 0` the largest one that is `≤ mBeats`, and for
`mBeats < 0` the smallest one that is `≥ mBeats` (`fmod` has the sign of its
first argument). -/
theorem LinkTrig_next_loop_start (fuel : ℕ) (g : LinkUGen) (l : Link) (unit : LinkTrig)
    (host : Host) (tl : Timeline) (quantum beatsPerClick r : ℚ) (n : ℕ)
    (hl : g.sLink = some l) (hp : 0 < beatsPerClick)
    (hr : fmod unit.mBeats beatsPerClick = some r) :
    LinkTrig_next fuel g unit host tl quantum beatsPerClick n =
      (clickLoop n unit.mBeats (beatsAtBufferEnd unit host tl quantum n) beatsPerClick
          (samplesPerBeat n (beatsAtBufferEnd unit host tl quantum n - unit.mBeats))
          fuel (unit.mBeats - r) (List.replicate n 0)).map
        (fun out =>
          ({ g with sLink := some (l.record LinkCall.captureAudioTimeline) },
           { unit with mBeats := beatsAtBufferEnd unit host tl quantum n }, out)) ∧
    (∃ m : ℤ, unit.mBeats - r = (m : ℚ) * beatsPerClick) ∧
    (0 ≤ unit.mBeats → unit.mBeats - r ≤ unit.mBeats ∧
      ∀ m : ℤ, (m : ℚ) * beatsPerClick ≤ unit.mBeats →
        (m : ℚ) * beatsPerClick ≤ unit.mBeats - r) ∧
    (unit.mBeats < 0 → unit.mBeats ≤ unit.mBeats - r ∧
      ∀ m : ℤ, unit.mBeats ≤ (m : ℚ) * beatsPerClick →
        unit.mBeats - r ≤ (m : ℚ) * beatsPerClick) := by
  obtain ⟨hst, hnn, hneg, hmin⟩ := fmod_start hp hr
  refine ⟨by simp only [LinkTrig_next, hl, hr], ⟨_, hst⟩, fun hB => ?_, fun hB => ?_⟩
  · obtain ⟨h0, h1⟩ := hnn hB
    refine ⟨by linarith, fun m hm => ?_⟩
    rw [hst]
    have hlt : (m : ℚ) * beatsPerClick
        < ((truncQ (unit.mBeats / beatsPerClick) + 1 : ℤ) : ℚ) * beatsPerClick := by
      push_cast
      linarith
    have hmt : (m : ℚ) < ((truncQ (unit.mBeats / beatsPerClick) + 1 : ℤ) : ℚ) :=
      lt_of_mul_lt_mul_right hlt hp.le
    have hmt' : m < truncQ (unit.mBeats / beatsPerClick) + 1 := by exact_mod_cast hmt
    have hle : (m : ℚ) ≤ (truncQ (unit.mBeats / beatsPerClick) : ℚ) := by
      exact_mod_cast Int.lt_add_one_iff.mp hmt'
    exact mul_le_mul_of_nonneg_right hle hp.le
  · obtain ⟨h0, h1⟩ := hneg hB
    refine ⟨by linarith, fun m hm => ?_⟩
    rw [hst]
    have hle : (truncQ (unit.mBeats / beatsPerClick) : ℚ) ≤ (m : ℚ) := by
      exact_mod_cast hmin m hm
    exact mul_le_mul_of_nonneg_right hle hp.le

/-- The amended C16 on `mBeats = -1/2` with one click per beat: the loop
starts at `0`. -/
theorem LinkTrig_next_loop_start_witness :
    (LinkUGen.init.sLink = some { enabled := false, calls := [] } ∧ (0 : ℚ) < 1 ∧
      fmod (-1 / 2) 1 = some (-1 / 2)) ∧
    ((-1 / 2 : ℚ) < 0 → (-1 / 2 : ℚ) ≤ -1 / 2 - -1 / 2 ∧
      ∀ m : ℤ, (-1 / 2 : ℚ) ≤ (m : ℚ) * 1 → (-1 / 2 : ℚ) - -1 / 2 ≤ (m : ℚ) * 1) := by
  have hr : fmod (-1 / 2) 1 = some (-1 / 2) := by norm_num [fmod, truncQ]
  exact ⟨⟨rfl, by norm_num, hr⟩,
    (LinkTrig_next_loop_start 0 LinkUGen.init _ ⟨-1 / 2, 0⟩ host44k (constTimeline 0 0) 4 1
      (-1 / 2) 4 rfl (by norm_num) hr).2.2.2⟩

/-- C16 as stated fails on the code for a negative `beatsAtBufferBegin` off the
grid: with `mBeats = -1/2` and one click per beat `fmod` gives `-1/2` and the
loop starts at `0`, which is not `≤ -1/2`; the largest multiple that is
`≤ -1/2` is `-1`. -/
theorem LinkTrig_next_loop_start_counterexample :
    fmod (-1 / 2) 1 = some (-1 / 2) ∧ ¬ ((-1 / 2 : ℚ) - -1 / 2 ≤ -1 / 2) ∧
    (((-1 : ℤ) : ℚ) * 1 ≤ -1 / 2 ∧ ∀ m : ℤ, (m : ℚ) * 1 ≤ -1 / 2 → m ≤ -1) := by
  refine ⟨by norm_num [fmod, truncQ], by norm_num, by norm_num, fun m hm => ?_⟩
  have h : (m : ℚ) < 0 := by linarith
  have h' : m < 0 := by exact_mod_cast h
  omega

/-- `LinkTrig_Ctor` on a present session when the incremented counter is not
`0`: the late-join branch. -/
theorem LinkTrig_Ctor_join (g : LinkUGen) (l : Link) (unit : LinkTrig) (host : Host)
    (tl : Timeline) (quantum r : ℚ) (hl : g.sLink = some l)
    (hc : g.sNumInstances + 1 < 2 ^ 32)
    (hr : fmod (tl.beatAtTime (timeAtBufferBegin host) quantum) quantum = some r) :
    ∃ g', LinkTrig_Ctor g unit host tl quantum =
      some (g', { unit with
        mBeatTimeOffset := tl.beatAtTime (timeAtBufferBegin host) quantum + quantum - r }, 0) := by
  have hm : (g.sNumInstances + 1) % 4294967296 = g.sNumInstances + 1 := by omega
  cases he : l.enabled with
  | true =>
    exact ⟨⟨some (l.record LinkCall.captureAudioTimeline), g.sNumInstances + 1⟩,
      by simp [LinkTrig_Ctor, LinkUgen_Ctor, hl, Link.isEnabled, he, hm, hr]⟩
  | false =>
    exact ⟨⟨some ((l.enable true).record LinkCall.captureAudioTimeline), g.sNumInstances + 1⟩,
      by simp [LinkTrig_Ctor, LinkUgen_Ctor, hl, Link.isEnabled, he, hm, hr]⟩

/-- C15, as the code has it.  For `quantum > 0`, in the late-join branch of
`LinkTrig_Ctor` (session present, the incremented counter not wrapped to `0`),
the offset `currentBeats + quantum - fmod(currentBeats, quantum)` is an integer
multiple of `quantum` strictly greater than `currentBeats`, and for
`currentBeats ≥ 0` it is the smallest integer multiple of `quantum` that is
strictly greater than `currentBeats`. -/
theorem LinkTrig_Ctor_offset_grid (g : LinkUGen) (l : Link) (unit : LinkTrig) (host : Host)
    (tl : Timeline) (quantum : ℚ) (hl : g.sLink = some l)
    (hc : g.sNumInstances + 1 < 2 ^ 32) (hq : 0 < quantum) :
    ∃ g' unit' z, LinkTrig_Ctor g unit host tl quantum = some (g', unit', z) ∧
      (∃ m : ℤ, unit'.mBeatTimeOffset = (m : ℚ) * quantum) ∧
      tl.beatAtTime (timeAtBufferBegin host) quantum < unit'.mBeatTimeOffset ∧
      (0 ≤ tl.beatAtTime (timeAtBufferBegin host) quantum →
        ∀ m : ℤ, tl.beatAtTime (timeAtBufferBegin host) quantum < (m : ℚ) * quantum →
          unit'.mBeatTimeOffset ≤ (m : ℚ) * quantum) := by
  obtain ⟨g', hrun⟩ := LinkTrig_Ctor_join g l unit host tl quantum _ hl hc (fmod_pos hq)
  obtain ⟨hst, hnn, hneg, -⟩ := fmod_start hq (fmod_pos hq :
    fmod (tl.beatAtTime (timeAtBufferBegin host) quantum) quantum = _)
  refine ⟨g', _, 0, hrun, ⟨truncQ (tl.beatAtTime (timeAtBufferBegin host) quantum / quantum) + 1,
    ?_⟩, ?_, fun h0 m hm => ?_⟩
  · push_cast
    linarith
  · show tl.beatAtTime (timeAtBufferBegin host) quantum
      < tl.beatAtTime (timeAtBufferBegin host) quantum + quantum -
        (tl.beatAtTime (timeAtBufferBegin host) quantum -
          quantum * (truncQ (tl.beatAtTime (timeAtBufferBegin host) quantum / quantum) : ℚ))
    by_cases h0 : 0 ≤ tl.beatAtTime (timeAtBufferBegin host) quantum
    · have := (hnn h0).2
      linarith
    · have := (hneg (not_le.mp h0)).2
      linarith
  · show tl.beatAtTime (timeAtBufferBegin host) quantum + quantum -
        (tl.beatAtTime (timeAtBufferBegin host) quantum -
          quantum * (truncQ (tl.beatAtTime (timeAtBufferBegin host) quantum / quantum) : ℚ))
      ≤ (m : ℚ) * quantum
    have hr1 := (hnn h0).1
    have hlt : (truncQ (tl.beatAtTime (timeAtBufferBegin host) quantum / quantum) : ℚ) * quantum
        < (m : ℚ) * quantum := by linarith
    have hmt : (truncQ (tl.beatAtTime (timeAtBufferBegin host) quantum / quantum) : ℚ)
        < (m : ℚ) := lt_of_mul_lt_mul_right hlt hq.le
    have hmt' : truncQ (tl.beatAtTime (timeAtBufferBegin host) quantum / quantum) < m := by
      exact_mod_cast hmt
    have hle : ((truncQ (tl.beatAtTime (timeAtBufferBegin host) quantum / quantum) + 1 : ℤ) : ℚ)
        ≤ (m : ℚ) := by exact_mod_cast Int.add_one_le_iff.mpr hmt'
    have := mul_le_mul_of_nonneg_right hle hq.le
    push_cast at this
    linarith

/-- The amended C15 on a late joiner at beat `5/2` with `quantum = 4`. -/
theorem LinkTrig_Ctor_offset_grid_witness :
    ((⟨some ⟨true, [LinkCall.enable true]⟩, 1⟩ : LinkUGen).sLink
        = some ⟨true, [LinkCall.enable true]⟩ ∧
      (⟨some ⟨true, [LinkCall.enable true]⟩, 1⟩ : LinkUGen).sNumInstances + 1 < 2 ^ 32 ∧
      (0 : ℚ) < 4) ∧
    ∃ g' unit' z, LinkTrig_Ctor ⟨some ⟨true, [LinkCall.enable true]⟩, 1⟩ ⟨0, 0⟩ host44k
        (constTimeline (5 / 2) 0) 4 = some (g', unit', z) ∧
      (∃ m : ℤ, unit'.mBeatTimeOffset = (m : ℚ) * 4) ∧
      (5 / 2 : ℚ) < unit'.mBeatTimeOffset := by
  refine ⟨⟨rfl, by norm_num, by norm_num⟩, ?_⟩
  obtain ⟨g', unit', z, hrun, hm, hlt, -⟩ :=
    LinkTrig_Ctor_offset_grid ⟨some ⟨true, [LinkCall.enable true]⟩, 1⟩
      ⟨true, [LinkCall.enable true]⟩ ⟨0, 0⟩ host44k (constTimeline (5 / 2) 0) 4 rfl
      (by norm_num) (by norm_num)
  exact ⟨g', unit', z, hrun, hm, hlt⟩

/-- C15 as stated fails on the code when `currentBeats` is on the quantum grid:
a late joiner at beat `4` with `quantum = 4` gets the offset `4 + 4 - 0 = 8`,
while `4 = 1 * 4` is a smaller multiple of the quantum that is `≥ 4`. -/
theorem LinkTrig_Ctor_offset_grid_counterexample :
    (LinkTrig_Ctor ⟨some ⟨true, [LinkCall.enable true]⟩, 1⟩ ⟨0, 0⟩ host44k
        (constTimeline 4 0) 4).map (fun res => res.2.1.mBeatTimeOffset) = some 8 ∧
    (constTimeline 4 0).beatAtTime (timeAtBufferBegin host44k) 4 ≤ ((1 : ℤ) : ℚ) * 4 ∧
    ((1 : ℤ) : ℚ) * 4 < 8 := by
  refine ⟨?_, by norm_num [constTimeline], by norm_num⟩
  norm_num [LinkTrig_Ctor, LinkUgen_Ctor, Link.isEnabled, Link.record, fmod, truncQ,
    constTimeline]

/-- C17 fails on the code.  `LinkTrig_Ctor` never writes `mBeats`: a unit whose
memory holds `mBeats = 7` comes out with `mBeats = 7`, in the late-join branch
(first construction from the initial state, and a construction with an
instance alive) and in the anchoring branch (the counter wrapping to `0`)
alike. -/
theorem LinkTrig_Ctor_keeps_mBeats :
    (LinkTrig_Ctor LinkUGen.init ⟨7, 0⟩ host44k (constTimeline (5 / 2) 0) 4).map
        (fun res => res.2.1.mBeats) = some 7 ∧
    (LinkTrig_Ctor ⟨some ⟨true, [LinkCall.enable true]⟩, 1⟩ ⟨7, 0⟩ host44k
        (constTimeline (5 / 2) 0) 4).map (fun res => res.2.1.mBeats) = some 7 ∧
    (LinkTrig_Ctor ⟨some ⟨true, []⟩, 4294967295⟩ ⟨7, 0⟩ host44k
        (constTimeline (5 / 2) 0) 4).map (fun res => res.2.1.mBeats) = some 7 := by
  refine ⟨?_, ?_, ?_⟩
  · norm_num [LinkTrig_Ctor, LinkUgen_Ctor, LinkUGen.init, Link.isEnabled, Link.enable,
      Link.record, fmod, truncQ, constTimeline]
  · norm_num [LinkTrig_Ctor, LinkUgen_Ctor, Link.isEnabled, Link.record, fmod, truncQ,
      constTimeline]
  · norm_num [LinkTrig_Ctor, LinkUgen_Ctor, Link.isEnabled, Link.record]

/-! ## C11 and C12: the two scenarios -/

/-- C11, as the code has it.  For `numSamples ≥ 2`, `quantum = 4`,
`beatsPerClick = 1`, the session present and a buffer that maps to beats
`[7/2, 9/2)` (so that `samplesPerBeat = numSamples`), `LinkTrig_next` outputs
exactly one impulse, for the grid point `4`, at index
`lround(samplesPerBeat * 1/2)`, which is a sample index; all other samples are
`0`. -/
theorem LinkTrig_next_single_click (fuel : ℕ) (g : LinkUGen) (l : Link) (unit : LinkTrig)
    (host : Host) (tl : Timeline) (n : ℕ)
    (hl : g.sLink = some l) (hn : 2 ≤ n) (hB : unit.mBeats = 7 / 2)
    (hE : beatsAtBufferEnd unit host tl 4 n = 9 / 2) (hfuel : 2 ≤ fuel) :
    ∃ g' unit' out, LinkTrig_next fuel g unit host tl 4 1 n = some (g', unit', out) ∧
      out.length = n ∧
      samplesPerBeat n (beatsAtBufferEnd unit host tl 4 n - unit.mBeats) = some (n : ℚ) ∧
      0 ≤ lround ((n : ℚ) * (1 / 2)) ∧ lround ((n : ℚ) * (1 / 2)) < (n : ℤ) ∧
      ∀ i, i < n →
        (out[i]? = some 1 ↔ (i : ℤ) = lround ((n : ℚ) * (1 / 2))) ∧
        (out[i]? = some 1 ∨ out[i]? = some 0) := by
  have hnq : (2 : ℚ) ≤ (n : ℚ) := by exact_mod_cast hn
  have hr : fmod unit.mBeats 1 = some (1 / 2) := by
    rw [hB]
    norm_num [fmod, truncQ]
  have hc : ⌈(3 / 2 : ℚ)⌉ = 2 := by rw [Int.ceil_eq_iff]; norm_num
  have hit : clickIterations unit.mBeats (beatsAtBufferEnd unit host tl 4 n) 1 ≤ fuel := by
    have : clickIterations unit.mBeats (beatsAtBufferEnd unit host tl 4 n) 1 = 2 := by
      rw [hE]
      simp only [clickIterations, hr]
      rw [hB]
      norm_num [hc]
      rfl
    omega
  obtain ⟨out, hrun, hlen, hspec⟩ :=
    LinkTrig_next_spec fuel g l unit host tl 4 1 (1 / 2) n hl (by norm_num) hr hit
  have hround0 : 0 ≤ lround ((n : ℚ) * (1 / 2)) := by
    rw [lround_nonneg (by positivity)]
    exact Int.floor_nonneg.mpr (by positivity)
  have hroundn : lround ((n : ℚ) * (1 / 2)) < (n : ℤ) := by
    rw [lround_nonneg (by positivity), Int.floor_lt]
    push_cast
    linarith
  refine ⟨_, _, out, hrun, hlen, ?_, hround0, hroundn, fun i hi => ?_⟩
  · rw [hE, hB]
    norm_num [samplesPerBeat]
  · obtain ⟨h1, h0⟩ := hspec i hi
    have hgrid := hitsFrom_grid (B := unit.mBeats)
      (E := beatsAtBufferEnd unit host tl 4 n) (p := 1) (r := 1 / 2) (n := n) (i := i)
      (by norm_num) (by omega) (by rw [hE, hB]; norm_num) (by rw [hE]; norm_num) hr
    have hiff : hitsFrom unit.mBeats (beatsAtBufferEnd unit host tl 4 n) 1
        (samplesPerBeat n (beatsAtBufferEnd unit host tl 4 n - unit.mBeats))
        (unit.mBeats - 1 / 2) i ↔ (i : ℤ) = lround ((n : ℚ) * (1 / 2)) := by
      rw [hgrid, hE, hB]
      constructor
      · rintro (⟨m, hm1, hm2, ho⟩ | ⟨-, -, hhalf⟩)
        · have h3 : (3 : ℚ) < (m : ℚ) := by linarith
          have h5 : (m : ℚ) < 5 := by linarith
          have h3' : (3 : ℤ) < m := by exact_mod_cast h3
          have h5' : m < 5 := by exact_mod_cast h5
          have hm4 : m = 4 := by omega
          subst hm4
          rw [← ho]
          congr 1
          norm_num
        · norm_num at hhalf
          linarith
      · intro hi'
        left
        refine ⟨4, by norm_num, by norm_num, ?_⟩
        rw [hi']
        congr 1
        norm_num
    by_cases hh : hitsFrom unit.mBeats (beatsAtBufferEnd unit host tl 4 n) 1
        (samplesPerBeat n (beatsAtBufferEnd unit host tl 4 n - unit.mBeats))
        (unit.mBeats - 1 / 2) i
    · exact ⟨⟨fun _ => hiff.mp hh, fun _ => h1 hh⟩, Or.inl (h1 hh)⟩
    · refine ⟨⟨fun h => ?_, fun h => absurd (hiff.mpr h) hh⟩, Or.inr (h0 hh)⟩
      rw [h0 hh] at h
      simp at h

/-- The amended C11 on a buffer of four samples: the impulse is at index `2`. -/
theorem LinkTrig_next_single_click_witness :
    (LinkUGen.init.sLink = some { enabled := false, calls := [] } ∧ 2 ≤ 4 ∧
      (⟨7 / 2, 0⟩ : LinkTrig).mBeats = 7 / 2 ∧
      beatsAtBufferEnd ⟨7 / 2, 0⟩ host44k (constTimeline (9 / 2) 0) 4 4 = 9 / 2 ∧ 2 ≤ 2) ∧
    ∃ g' unit' out, LinkTrig_next 2 LinkUGen.init ⟨7 / 2, 0⟩ host44k
        (constTimeline (9 / 2) 0) 4 1 4 = some (g', unit', out) ∧ out.length = 4 ∧
      out[2]? = some 1 := by
  have hE : beatsAtBufferEnd ⟨7 / 2, 0⟩ host44k (constTimeline (9 / 2) 0) 4 4 = 9 / 2 := by
    norm_num [beatsAtBufferEnd, constTimeline]
  refine ⟨⟨rfl, by norm_num, rfl, hE, le_refl 2⟩, ?_⟩
  obtain ⟨g', unit', out, hrun, hlen, -, -, -, hspec⟩ :=
    LinkTrig_next_single_click 2 LinkUGen.init _ ⟨7 / 2, 0⟩ host44k (constTimeline (9 / 2) 0) 4
      rfl (by norm_num) rfl hE (le_refl 2)
  refine ⟨g', unit', out, hrun, hlen, ((hspec 2 (by norm_num)).1).mpr ?_⟩
  norm_num [lround]

/-- C11 as stated fails on the code for `numSamples = 1`: the grid point `4`
has offset `lround(1 * 1/2) = 1`, which is not a sample index and is
discarded, so the one-sample buffer holds no impulse. -/
theorem LinkTrig_next_single_click_counterexample :
    beatsAtBufferEnd ⟨7 / 2, 0⟩ host44k (constTimeline (9 / 2) 0) 4 1 = 9 / 2 ∧
    lround ((1 : ℚ) * (1 / 2)) = 1 ∧
    (LinkTrig_next 2 LinkUGen.init ⟨7 / 2, 0⟩ host44k (constTimeline (9 / 2) 0) 4 1 1).map
      (fun res => res.2.2) = some [0] := by
  refine ⟨by norm_num [beatsAtBufferEnd, constTimeline], by norm_num [lround], ?_⟩
  norm_num [LinkTrig_next, LinkUGen.init, fmod, truncQ, clickLoop, beatsAtBufferEnd,
    constTimeline, samplesPerBeat, clickOffset, writeClick, lround]

/-- C12.  For `beatsPerClick > 0`, an integer `m ≥ 1`, `numSamples = n ≥ m`, the
session present and a buffer that maps to beats `[0, m * beatsPerClick)`,
`LinkTrig_next` outputs `1` exactly at the indices `lround(k * n / m)` for
`k = 0 .. m - 1`, all of which are sample indices, and `0` everywhere else. -/
theorem LinkTrig_next_even_clicks (fuel : ℕ) (g : LinkUGen) (l : Link) (unit : LinkTrig)
    (host : Host) (tl : Timeline) (quantum beatsPerClick : ℚ) (n m : ℕ)
    (hl : g.sLink = some l) (hp : 0 < beatsPerClick) (hm : 1 ≤ m) (hnm : m ≤ n)
    (hB : unit.mBeats = 0)
    (hE : beatsAtBufferEnd unit host tl quantum n = (m : ℚ) * beatsPerClick)
    (hfuel : m ≤ fuel) :
    ∃ g' unit' out, LinkTrig_next fuel g unit host tl quantum beatsPerClick n =
        some (g', unit', out) ∧
      out.length = n ∧
      (∀ k : ℕ, k < m → 0 ≤ lround ((k : ℚ) * (n : ℚ) / (m : ℚ)) ∧
        lround ((k : ℚ) * (n : ℚ) / (m : ℚ)) < (n : ℤ)) ∧
      ∀ i, i < n →
        (out[i]? = some 1 ↔ ∃ k : ℕ, k < m ∧ lround ((k : ℚ) * (n : ℚ) / (m : ℚ)) = (i : ℤ)) ∧
        (out[i]? = some 1 ∨ out[i]? = some 0) := by
  have hmq : (1 : ℚ) ≤ (m : ℚ) := by exact_mod_cast hm
  have hmpos : (0 : ℚ) < (m : ℚ) := by linarith
  have hnmq : (m : ℚ) ≤ (n : ℚ) := by exact_mod_cast hnm
  have hEpos : 0 < (m : ℚ) * beatsPerClick := by positivity
  have hr : fmod unit.mBeats beatsPerClick = some 0 := by
    rw [hB, fmod_pos hp]
    simp [truncQ]
  have hit : clickIterations unit.mBeats (beatsAtBufferEnd unit host tl quantum n) beatsPerClick
      ≤ fuel := by
    have : clickIterations unit.mBeats (beatsAtBufferEnd unit host tl quantum n) beatsPerClick
        = m := by
      rw [hE]
      simp only [clickIterations, hr]
      rw [hB]
      have hc : (0 : ℚ) - 0 < (m : ℚ) * beatsPerClick ∧ 0 < (m : ℚ) * beatsPerClick :=
        ⟨by linarith, hEpos⟩
      rw [if_pos hc]
      have : ((m : ℚ) * beatsPerClick - (0 - 0)) / beatsPerClick = ((m : ℤ) : ℚ) := by
        push_cast
        field_simp
      rw [this, Int.ceil_intCast]
      rfl
    omega
  obtain ⟨out, hrun, hlen, hspec⟩ :=
    LinkTrig_next_spec fuel g l unit host tl quantum beatsPerClick 0 n hl hp hr hit
  have hbound : ∀ k : ℕ, k < m → 0 ≤ lround ((k : ℚ) * (n : ℚ) / (m : ℚ)) ∧
      lround ((k : ℚ) * (n : ℚ) / (m : ℚ)) < (n : ℤ) := by
    intro k hk
    have hkq : (k : ℚ) + 1 ≤ (m : ℚ) := by exact_mod_cast hk
    have hx0 : (0 : ℚ) ≤ (k : ℚ) * (n : ℚ) / (m : ℚ) := by positivity
    rw [lround_nonneg hx0]
    refine ⟨Int.floor_nonneg.mpr (by linarith), ?_⟩
    rw [Int.floor_lt]
    push_cast
    have hx1 : (k : ℚ) * (n : ℚ) / (m : ℚ) ≤ (n : ℚ) - 1 := by
      rw [div_le_iff₀ hmpos]
      nlinarith
    linarith
  have hiff : ∀ i : ℕ, hitsFrom unit.mBeats (beatsAtBufferEnd unit host tl quantum n)
      beatsPerClick
      (samplesPerBeat n (beatsAtBufferEnd unit host tl quantum n - unit.mBeats))
      (unit.mBeats - 0) i ↔
      ∃ k : ℕ, k < m ∧ lround ((k : ℚ) * (n : ℚ) / (m : ℚ)) = (i : ℤ) := by
    intro i
    have hd : (m : ℚ) * beatsPerClick - 0 ≠ 0 := by
      rw [sub_zero]
      exact hEpos.ne'
    rw [hE, hB]
    simp only [hitsFrom, samplesPerBeat, if_neg hd, clickOffset, Option.some.injEq]
    have hval : ∀ k : ℕ, (n : ℚ) / ((m : ℚ) * beatsPerClick - 0)
        * ((0 : ℚ) - 0 + (k : ℚ) * beatsPerClick - 0) = (k : ℚ) * (n : ℚ) / (m : ℚ) := by
      intro k
      have hp' : beatsPerClick ≠ 0 := hp.ne'
      have hm' : (m : ℚ) ≠ 0 := hmpos.ne'
      field_simp
      ring
    constructor
    · rintro ⟨k, hk, -, ho⟩
      refine ⟨k, ?_, by rw [← hval k]; exact ho⟩
      have hlt : (k : ℚ) * beatsPerClick < (m : ℚ) * beatsPerClick := by linarith
      have : (k : ℚ) < (m : ℚ) := lt_of_mul_lt_mul_right hlt hp.le
      exact_mod_cast this
    · rintro ⟨k, hk, ho⟩
      have hkq : (k : ℚ) < (m : ℚ) := by exact_mod_cast hk
      refine ⟨k, ?_, hEpos, by rw [hval k]; exact ho⟩
      have := mul_lt_mul_of_pos_right hkq hp
      linarith
  refine ⟨_, _, out, hrun, hlen, hbound, fun i hi => ?_⟩
  obtain ⟨h1, h0⟩ := hspec i hi
  by_cases hh : hitsFrom unit.mBeats (beatsAtBufferEnd unit host tl quantum n) beatsPerClick
      (samplesPerBeat n (beatsAtBufferEnd unit host tl quantum n - unit.mBeats))
      (unit.mBeats - 0) i
  · exact ⟨⟨fun _ => (hiff i).mp hh, fun _ => h1 hh⟩, Or.inl (h1 hh)⟩
  · refine ⟨⟨fun h => ?_, fun h => absurd ((hiff i).mpr h) hh⟩, Or.inr (h0 hh)⟩
    rw [h0 hh] at h
    simp at h

/-- C12 on the scenario of the specification: `quantum = 4`, one click per
beat, beats `[0, 2)` over 1000 samples: impulses exactly at `0` and `500`. -/
theorem LinkTrig_next_even_clicks_witness :
    (LinkUGen.init.sLink = some { enabled := false, calls := [] } ∧ (0 : ℚ) < 1 ∧ 1 ≤ 2 ∧
      2 ≤ 1000 ∧ (⟨0, 0⟩ : LinkTrig).mBeats = 0 ∧
      beatsAtBufferEnd ⟨0, 0⟩ host44k (constTimeline 2 0) 4 1000 = ((2 : ℕ) : ℚ) * 1 ∧
      2 ≤ 2) ∧
    ∃ g' unit' out, LinkTrig_next 2 LinkUGen.init ⟨0, 0⟩ host44k (constTimeline 2 0) 4 1 1000
        = some (g', unit', out) ∧ out.length = 1000 ∧
      ∀ i, i < 1000 → (out[i]? = some 1 ↔ i = 0 ∨ i = 500) ∧
        (out[i]? = some 1 ∨ out[i]? = some 0) := by
  have hE : beatsAtBufferEnd ⟨0, 0⟩ host44k (constTimeline 2 0) 4 1000 = ((2 : ℕ) : ℚ) * 1 := by
    norm_num [beatsAtBufferEnd, constTimeline]
  refine ⟨⟨rfl, by norm_num, by norm_num, by norm_num, rfl, hE, le_refl 2⟩, ?_⟩
  obtain ⟨g', unit', out, hrun, hlen, -, hspec⟩ :=
    LinkTrig_next_even_clicks 2 LinkUGen.init _ ⟨0, 0⟩ host44k (constTimeline 2 0) 4 1 1000 2
      rfl (by norm_num) (by norm_num) (by norm_num) rfl hE (le_refl 2)
  refine ⟨g', unit', out, hrun, hlen, fun i hi => ⟨?_, (hspec i hi).2⟩⟩
  rw [(hspec i hi).1]
  have h0 : lround (((0 : ℕ) : ℚ) * ((1000 : ℕ) : ℚ) / ((2 : ℕ) : ℚ)) = 0 := by
    norm_num [lround]
  have h1 : lround (((1 : ℕ) : ℚ) * ((1000 : ℕ) : ℚ) / ((2 : ℕ) : ℚ)) = 500 := by
    norm_num [lround]
  constructor
  · rintro ⟨k, hk, ho⟩
    interval_cases k
    · rw [h0] at ho
      left
      omega
    · rw [h1] at ho
      right
      omega
  · rintro (h | h)
    · exact ⟨0, by norm_num, by rw [h0, h]; rfl⟩
    · exact ⟨1, by norm_num, by rw [h1, h]; rfl⟩

/-! ## C20: a click at the seam of two buffers -/

/-- A grid point `m * p` with `m * p ≤ B < m * p + p`, `B ≥ 0`, is the start of
the loop: `fmod(B, p) = B - m * p`. -/
theorem fmod_of_grid {B p : ℚ} {m : ℤ} (hp : 0 < p) (hB : 0 ≤ B)
    (h1 : (m : ℚ) * p ≤ B) (h2 : B < (m : ℚ) * p + p) :
    fmod B p = some (B - (m : ℚ) * p) := by
  obtain ⟨hst, hnn, -, -⟩ := fmod_start hp (fmod_pos hp : fmod B p = _)
  obtain ⟨h0, hlt⟩ := hnn hB
  have ha : (truncQ (B / p) : ℚ) * p < ((m + 1 : ℤ) : ℚ) * p := by
    push_cast
    linarith
  have hb : (m : ℚ) * p < ((truncQ (B / p) + 1 : ℤ) : ℚ) * p := by
    push_cast
    linarith
  have ha' : truncQ (B / p) < m + 1 := by exact_mod_cast lt_of_mul_lt_mul_right ha hp.le
  have hb' : m < truncQ (B / p) + 1 := by exact_mod_cast lt_of_mul_lt_mul_right hb hp.le
  have hm : truncQ (B / p) = m := by omega
  rw [fmod_pos hp, hm]
  congr 1
  ring

/-- The offsets of a click at `b` in `[a, a + d)` computed in the buffer
`[a, a + d)` and in the next buffer `[a + d, a + 2 * d)`, `n` samples each. -/
theorem seam_offsets {a d b : ℚ} {n : ℕ} (hn : 1 ≤ n) (hd : 0 < d) (hb1 : a ≤ b)
    (hb2 : b < a + d) (hhalf : (n : ℚ) * (a + d - b) / d ≠ 1 / 2) :
    0 ≤ lround ((n : ℚ) * (b - a) / d) ∧ lround ((n : ℚ) * (b - a) / d) ≤ (n : ℤ) ∧
    (lround ((n : ℚ) * (b - a) / d) < (n : ℤ) →
      lround ((n : ℚ) * (b - (a + d)) / d) < 0) ∧
    (lround ((n : ℚ) * (b - a) / d) = (n : ℤ) →
      lround ((n : ℚ) * (b - (a + d)) / d) = 0 ∧ (n : ℚ) * (a + d - b) / d < 1 / 2) := by
  have hnq : (1 : ℚ) ≤ (n : ℚ) := by exact_mod_cast hn
  have hy : 0 < (n : ℚ) * (a + d - b) / d := by
    have : 0 < a + d - b := by linarith
    positivity
  have hx1 : (n : ℚ) * (b - a) / d = (n : ℚ) - (n : ℚ) * (a + d - b) / d := by
    field_simp
    ring
  have hx2 : (n : ℚ) * (b - (a + d)) / d = -((n : ℚ) * (a + d - b) / d) := by
    field_simp
    ring
  have hx0 : 0 ≤ (n : ℚ) * (b - a) / d := by
    have : 0 ≤ b - a := by linarith
    positivity
  rw [lround_nonneg hx0, hx2, lround_neg (by linarith), neg_neg, hx1]
  have hf0 : (0 : ℤ) ≤ ⌊(n : ℚ) * (a + d - b) / d + 1 / 2⌋ := Int.floor_nonneg.mpr (by linarith)
  refine ⟨Int.floor_nonneg.mpr (by rw [← hx1]; linarith), ?_, fun h => ?_, fun h => ?_⟩
  · have : ⌊(n : ℚ) - (n : ℚ) * (a + d - b) / d + 1 / 2⌋ < (n : ℤ) + 1 := by
      rw [Int.floor_lt]
      push_cast
      linarith
    omega
  · rw [Int.floor_lt] at h
    have h1 : (1 : ℤ) ≤ ⌊(n : ℚ) * (a + d - b) / d + 1 / 2⌋ := by
      rw [Int.le_floor]
      push_cast
      push_cast at h
      linarith
    omega
  · have hle : ((n : ℤ) : ℚ) ≤ (n : ℚ) - (n : ℚ) * (a + d - b) / d + 1 / 2 := by
      rw [← h]
      exact Int.floor_le _
    push_cast at hle
    have hlt : (n : ℚ) * (a + d - b) / d < 1 / 2 :=
      lt_of_le_of_ne (by linarith) hhalf
    have hf : ⌊(n : ℚ) * (a + d - b) / d + 1 / 2⌋ = 0 := by
      rw [Int.floor_eq_zero_iff]
      constructor <;> linarith
    rw [hf]
    exact ⟨rfl, hlt⟩

/-- C20.  Two consecutive calls of `LinkTrig_next` with the session present, the
same `numSamples = n ≥ 1` and the beat ranges `[a, a + d)` and
`[a + d, a + 2 * d)`, `a ≥ 0`, `d > 0`, `beatsPerClick ≥ d / n`, both return
(given fuel), and for every click-grid boundary `b = m * beatsPerClick` in
`[a, a + d)` with `n * (a + d - b) / d ≠ 1/2`: the offset of `b` computed in
the first buffer is `lround(n * (b - a) / d)`, which lies in `[0, n]`; if it is
`< n` the first output has a `1` at that index and the offset of `b` computed
in the second buffer is negative (discarded there); if it is `n` (discarded in
the first buffer) the offset of `b` in the second buffer is `0` and the second
output has a `1` at index `0`. -/
theorem LinkTrig_next_seam_click (fuel1 fuel2 : ℕ) (g : LinkUGen) (l : Link)
    (unit : LinkTrig) (host1 host2 : Host) (tl1 tl2 : Timeline) (quantum p a d : ℚ) (n : ℕ)
    (m : ℤ)
    (hl : g.sLink = some l) (hn : 1 ≤ n) (ha : 0 ≤ a) (hd : 0 < d) (hp : d / (n : ℚ) ≤ p)
    (hB : unit.mBeats = a)
    (hE1 : beatsAtBufferEnd unit host1 tl1 quantum n = a + d)
    (hE2 : beatsAtBufferEnd { unit with mBeats := a + d } host2 tl2 quantum n = a + 2 * d)
    (hb1 : a ≤ (m : ℚ) * p) (hb2 : (m : ℚ) * p < a + d)
    (hhalf : (n : ℚ) * (a + d - (m : ℚ) * p) / d ≠ 1 / 2)
    (hfuel1 : clickIterations a (a + d) p ≤ fuel1)
    (hfuel2 : clickIterations (a + d) (a + 2 * d) p ≤ fuel2) :
    ∃ g1 unit1 out1 g2 unit2 out2,
      LinkTrig_next fuel1 g unit host1 tl1 quantum p n = some (g1, unit1, out1) ∧
      LinkTrig_next fuel2 g1 unit1 host2 tl2 quantum p n = some (g2, unit2, out2) ∧
      clickOffset (samplesPerBeat n (a + d - a)) ((m : ℚ) * p) a
        = some (lround ((n : ℚ) * ((m : ℚ) * p - a) / d)) ∧
      clickOffset (samplesPerBeat n (a + 2 * d - (a + d))) ((m : ℚ) * p) (a + d)
        = some (lround ((n : ℚ) * ((m : ℚ) * p - (a + d)) / d)) ∧
      0 ≤ lround ((n : ℚ) * ((m : ℚ) * p - a) / d) ∧
      lround ((n : ℚ) * ((m : ℚ) * p - a) / d) ≤ (n : ℤ) ∧
      (lround ((n : ℚ) * ((m : ℚ) * p - a) / d) < (n : ℤ) →
        out1[(lround ((n : ℚ) * ((m : ℚ) * p - a) / d)).toNat]? = some 1 ∧
        lround ((n : ℚ) * ((m : ℚ) * p - (a + d)) / d) < 0) ∧
      (lround ((n : ℚ) * ((m : ℚ) * p - a) / d) = (n : ℤ) →
        lround ((n : ℚ) * ((m : ℚ) * p - (a + d)) / d) = 0 ∧ out2[0]? = some 1) := by
  have hnq : (1 : ℚ) ≤ (n : ℚ) := by exact_mod_cast hn
  have hnpos : (0 : ℚ) < (n : ℚ) := by linarith
  have hp0 : 0 < p := lt_of_lt_of_le (by positivity) hp
  have hdn : d ≤ p * (n : ℚ) := (div_le_iff₀ hnpos).mp hp
  have hd1 : a + d - a = d := by ring
  have hd2 : a + 2 * d - (a + d) = d := by ring
  obtain ⟨ho0, hon, hlt, heq⟩ := seam_offsets hn hd hb1 hb2 hhalf
  -- the first call
  have hr1 : fmod unit.mBeats p = some (a - p * (truncQ (a / p) : ℚ)) := by
    rw [hB]
    exact fmod_pos hp0
  obtain ⟨out1, hrun1, hlen1, hspec1⟩ :=
    LinkTrig_next_spec fuel1 g l unit host1 tl1 quantum p _ n hl hp0 hr1
      (by rw [hB, hE1]; exact hfuel1)
  rw [hE1] at hrun1
  rw [hE1, hB] at hspec1
  -- the second call
  have hr2 : fmod (a + d) p = some (a + d - p * (truncQ ((a + d) / p) : ℚ)) := fmod_pos hp0
  obtain ⟨out2, hrun2, hlen2, hspec2⟩ :=
    LinkTrig_next_spec fuel2 { g with sLink := some (l.record LinkCall.captureAudioTimeline) }
      (l.record LinkCall.captureAudioTimeline) { unit with mBeats := a + d } host2 tl2 quantum p
      _ n rfl hp0 hr2 (by rw [hE2]; exact hfuel2)
  rw [hE2] at hspec2
  refine ⟨_, _, out1, _, _, out2, hrun1, hrun2, ?_, ?_, ho0, hon, fun h => ⟨?_, hlt h⟩,
    fun h => ⟨(heq h).1, ?_⟩⟩
  · rw [hd1]
    simp only [samplesPerBeat, if_neg hd.ne', clickOffset, Option.some.injEq]
    congr 1
    ring
  · rw [hd2]
    simp only [samplesPerBeat, if_neg hd.ne', clickOffset, Option.some.injEq]
    congr 1
    ring
  · have hi : (lround ((n : ℚ) * ((m : ℚ) * p - a) / d)).toNat < n := by omega
    apply (hspec1 _ hi).1
    rw [hitsFrom_grid hp0 hn (by linarith) (by linarith) (hB ▸ hr1)]
    left
    refine ⟨m, hb1, hb2, ?_⟩
    rw [hd1, Int.toNat_of_nonneg ho0]
  · have hy := (heq h).2
    have hy' : (n : ℚ) * (a + d - (m : ℚ) * p) < 1 / 2 * d := (div_lt_iff₀ hd).mp hy
    have hgap : a + d - (m : ℚ) * p < p := by nlinarith
    have hr2' := fmod_of_grid (B := a + d) (m := m) hp0 (by linarith) hb2.le (by linarith)
    have hreq : a + d - p * (truncQ ((a + d) / p) : ℚ) = a + d - (m : ℚ) * p :=
      Option.some.inj (hr2.symm.trans hr2')
    apply (hspec2 0 (by omega)).1
    show hitsFrom (a + d) (a + 2 * d) p (samplesPerBeat n (a + 2 * d - (a + d)))
      (a + d - (a + d - p * (truncQ ((a + d) / p) : ℚ))) 0
    rw [hitsFrom_grid hp0 hn (by linarith) (by linarith) hr2]
    right
    refine ⟨rfl, by rw [hreq]; linarith, ?_⟩
    rw [hreq, hd2]
    exact hy

/-- C20 on beats `[0, 1)` and `[1, 2)`, four samples each, a click every `9/10`
beat: the boundary `9/10` has offset `lround(3.6) = 4` in the first buffer and
appears at index `0` of the second. -/
theorem LinkTrig_next_seam_click_witness :
    (LinkUGen.init.sLink = some { enabled := false, calls := [] } ∧ 1 ≤ 4 ∧ (0 : ℚ) ≤ 0 ∧
      (0 : ℚ) < 1 ∧ (1 : ℚ) / ((4 : ℕ) : ℚ) ≤ 9 / 10 ∧ (⟨0, 0⟩ : LinkTrig).mBeats = 0 ∧
      beatsAtBufferEnd ⟨0, 0⟩ host44k (constTimeline 1 0) 4 4 = 0 + 1 ∧
      beatsAtBufferEnd { (⟨0, 0⟩ : LinkTrig) with mBeats := 0 + 1 } host44k
        (constTimeline 2 0) 4 4 = 0 + 2 * 1 ∧
      (0 : ℚ) ≤ ((1 : ℤ) : ℚ) * (9 / 10) ∧ ((1 : ℤ) : ℚ) * (9 / 10) < 0 + 1 ∧
      ((4 : ℕ) : ℚ) * (0 + 1 - ((1 : ℤ) : ℚ) * (9 / 10)) / 1 ≠ 1 / 2 ∧
      clickIterations 0 (0 + 1) (9 / 10) ≤ 2 ∧
      clickIterations (0 + 1) (0 + 2 * 1) (9 / 10) ≤ 2) ∧
    ∃ g1 unit1 out1 g2 unit2 out2,
      LinkTrig_next 2 LinkUGen.init ⟨0, 0⟩ host44k (constTimeline 1 0) 4 (9 / 10) 4
        = some (g1, unit1, out1) ∧
      LinkTrig_next 2 g1 unit1 host44k (constTimeline 2 0) 4 (9 / 10) 4
        = some (g2, unit2, out2) ∧
      out2[0]? = some 1 := by
  have hp : (1 : ℚ) / ((4 : ℕ) : ℚ) ≤ 9 / 10 := by norm_num
  have hE1 : beatsAtBufferEnd ⟨0, 0⟩ host44k (constTimeline 1 0) 4 4 = 0 + 1 := by
    norm_num [beatsAtBufferEnd, constTimeline]
  have hE2 : beatsAtBufferEnd { (⟨0, 0⟩ : LinkTrig) with mBeats := 0 + 1 } host44k
      (constTimeline 2 0) 4 4 = 0 + 2 * 1 := by
    norm_num [beatsAtBufferEnd, constTimeline]
  have hb1 : (0 : ℚ) ≤ ((1 : ℤ) : ℚ) * (9 / 10) := by norm_num
  have hb2 : ((1 : ℤ) : ℚ) * (9 / 10) < 0 + 1 := by norm_num
  have hhalf : ((4 : ℕ) : ℚ) * (0 + 1 - ((1 : ℤ) : ℚ) * (9 / 10)) / 1 ≠ 1 / 2 := by norm_num
  have hc1 : ⌈(10 / 9 : ℚ)⌉ = 2 := by rw [Int.ceil_eq_iff]; norm_num
  have hc2 : ⌈(11 / 9 : ℚ)⌉ = 2 := by rw [Int.ceil_eq_iff]; norm_num
  have hf1 : clickIterations 0 (0 + 1) (9 / 10) ≤ 2 := by
    norm_num [clickIterations, fmod, truncQ, hc1]
  have hf2 : clickIterations (0 + 1) (0 + 2 * 1) (9 / 10) ≤ 2 := by
    have hfl : ⌊(10 / 9 : ℚ)⌋ = 1 := by rw [Int.floor_eq_iff]; norm_num
    norm_num [clickIterations, fmod, truncQ, hfl, hc2]
  refine ⟨⟨rfl, by norm_num, le_refl 0, by norm_num, hp, rfl, hE1, hE2, hb1, hb2, hhalf, hf1,
    hf2⟩, ?_⟩
  obtain ⟨g1, unit1, out1, g2, unit2, out2, hrun1, hrun2, -, -, -, -, -, hseam⟩ :=
    LinkTrig_next_seam_click 2 2 LinkUGen.init _ ⟨0, 0⟩ host44k host44k (constTimeline 1 0)
      (constTimeline 2 0) 4 (9 / 10) 0 1 4 1 rfl (by norm_num) (le_refl 0) (by norm_num) hp rfl
      hE1 hE2 hb1 hb2 hhalf hf1 hf2
  refine ⟨g1, unit1, out1, g2, unit2, out2, hrun1, hrun2, (hseam ?_).2⟩
  norm_num [lround]

end LinkUGens
